import Mathlib

/-!
Verification development for the documentation ingestion and indexing server
(`doc_agent_server.py`).  Paths and URL paths are modelled in their
`str.split('/')` representation: a path string `s` is represented by the list
of its `'/'`-separated segments (always a nonempty list; the empty string is
`[""]`, an absolute path starts with the segment `""`).  Each definition
mirrors one Python function or code block, named after it where Lean allows.
-/

namespace DocAgent

/-- Python `s.lstrip('/')` on the split representation: drops the leading
empty segments produced by leading slashes; an all-slash or empty string
becomes the empty string `[""]`. -/
def lstripSlash (l : List String) : List String :=
  let r := l.dropWhile (· = "")
  if r = [] then [""] else r

/-- Python `os.path.isabs` (POSIX): the string starts with `'/'`, i.e. the
split representation has a first segment `""` followed by at least one more
segment. -/
def isabsSeg (l : List String) : Bool :=
  match l with
  | x :: _ :: _ => x == ""
  | _ => false

/-- Drop trailing empty segments (Python `s.rstrip('/')` acting on the
segment list, for a head that is not all slashes). -/
def rstripEmptySeg (l : List String) : List String :=
  (l.reverse.dropWhile (· = "")).reverse

/-- Python `posixpath.dirname`: everything up to the final `'/'`, with
trailing slashes stripped unless the head consists only of slashes. -/
def dirnameSeg (p : List String) : List String :=
  match p with
  | [] => [""]
  | [_] => [""]
  | _ =>
    let head := p.dropLast
    if head.all (· = "") then head ++ [""] else rstripEmptySeg head

/-- Python string `p.startswith(d)` on split representations (segments
contain no `'/'`): all but the last segment of `d` must match exactly, and
the last segment of `d` must be a character-prefix of the corresponding
segment of `p`. -/
def strStartsWith : List String → List String → Bool
  | _, [] => true
  | p :: _, [d] => d.data.isPrefixOf p.data
  | [], _ :: _ => false
  | p :: ps, d :: ds => (p = d) && strStartsWith ps ds

/-- Python slice `p[len(d):]` on split representations, meaningful when the
string of `d` is a character-prefix of the string of `p`. -/
def strDropSeg : List String → List String → List String
  | p, [] => p
  | p :: ps, [d] => (String.mk (p.data.drop d.length)) :: ps
  | [], _ :: _ => [""]
  | _ :: ps, _ :: ds => strDropSeg ps ds

/-- Python `posixpath.join(a, b)` for the two-argument case. -/
def joinSeg (a b : List String) : List String :=
  if isabsSeg b then b
  else if a.getLast? = some "" then a.dropLast ++ b
  else a ++ b

/-- Number of leading slashes retained by CPython `posixpath.normpath`
(1 for `'/'` or three-and-more leading slashes, 2 for exactly `'//'`). -/
def initialSlashes (l : List String) : Nat :=
  if isabsSeg l then
    if (l.take 2 = ["", ""] ∧ 3 ≤ l.length) ∧ ¬(l.take 3 = ["", "", ""] ∧ 4 ≤ l.length)
    then 2 else 1
  else 0

/-- One iteration of the component loop of CPython `posixpath.normpath`:
skip empty and `"."` components, resolve `".."` against the accumulated
components. -/
def normStep (hasInitialSlashes : Bool) (acc : List String) (comp : String) : List String :=
  if comp = "" ∨ comp = "." then acc
  else if comp ≠ ".." ∨ (¬hasInitialSlashes ∧ acc = []) ∨ acc.getLast? = some ".."
  then acc ++ [comp]
  else if acc ≠ [] then acc.dropLast
  else acc

/-- The component loop of CPython `posixpath.normpath`. -/
def normComps (comps : List String) (hasInitialSlashes : Bool) : List String :=
  comps.foldl (normStep hasInitialSlashes) []

/-- Python `posixpath.normpath` on the split representation. -/
def normpathSeg (l : List String) : List String :=
  let ini := initialSlashes l
  let comps := normComps l (ini > 0)
  if ini = 2 then "" :: "" :: (if comps = [] then [""] else comps)
  else if ini = 1 then "" :: (if comps = [] then [""] else comps)
  else if comps = [] then ["."]
  else comps

/-- A URL as returned by `urllib.parse.urlparse`, with the path kept in its
split representation.  `get_local_path_from_url` receives the target URL
after the `urljoin` resolution step, so both arguments are arbitrary parsed
URLs here. -/
structure ParsedUrl where
  scheme : String
  netloc : String
  path : List String
  query : String
  fragment : String
deriving DecidableEq, Repr

/-- The `relative_path` computed by `get_local_path_from_url` before the
domain-root sentinel and the safety check (lines 306-314): cross-host
targets use the target's own path, same-host targets are taken relative to
the directory of the main index URL when the target path starts with it. -/
def derivedRelativeSeg (mainp filep : ParsedUrl) : List String :=
  if mainp.netloc ≠ filep.netloc then lstripSlash filep.path
  else if strStartsWith filep.path (dirnameSeg mainp.path) ∧
      dirnameSeg mainp.path ≠ ["", ""] then
    lstripSlash (strDropSeg filep.path (dirnameSeg mainp.path))
  else lstripSlash filep.path

/-- The final `relative_path` (lines 316-318): a target resolving to the
domain root is mapped to the fixed sentinel file name. -/
def relativePathOf (mainp filep : ParsedUrl) : List String :=
  if derivedRelativeSeg mainp filep = [""] then ["_root_index.md"]
  else derivedRelativeSeg mainp filep

/-- `get_local_path_from_url` (doc_agent_server.py lines 292-329): derive a
local path for `filep` under the cache root, mapping a domain-root target to
the sentinel file name, and refusing any derived relative path that contains
a `".."` segment or is absolute. -/
def get_local_path_from_url (mainp filep : ParsedUrl) (uniqueCacheRootAbs : List String) :
    Option (List String) :=
  if ".." ∈ relativePathOf mainp filep ∨ isabsSeg (relativePathOf mainp filep) then none
  else some (normpathSeg (joinSeg uniqueCacheRootAbs (relativePathOf mainp filep)))

/-! ### Lemmas about the path machinery -/

/-- A list whose members are all nonempty has no `some ""` last element. -/
lemma getLast?_ne_empty : ∀ (l : List String), (∀ x ∈ l, x ≠ "") → l.getLast? ≠ some "" := by
  intro l
  induction l with
  | nil => intro _ h; simp at h
  | cons a t ih =>
    intro hall h
    cases t with
    | nil =>
      simp only [List.getLast?_singleton, Option.some.injEq] at h
      exact hall a (by simp) h
    | cons b t2 =>
      rw [List.getLast?_cons_cons] at h
      exact ih (fun x hx => hall x (List.mem_cons_of_mem a hx)) h

/-- The components kept by the `normpath` loop when no `".."` occurs. -/
def keepComp (c : String) : Bool := decide (c ≠ "" ∧ c ≠ ".")

/-- When no `".."` component occurs, the `normpath` component loop just
filters out empty and `"."` components. -/
lemma foldl_normStep_eq (ini : Bool) (xs : List String) (h : ".." ∉ xs) :
    ∀ acc, xs.foldl (normStep ini) acc = acc ++ xs.filter keepComp := by
  induction xs with
  | nil => intro acc; simp
  | cons x xs ih =>
    intro acc
    have hx : x ≠ ".." := fun e => h (by simp [e])
    have hxs : ".." ∉ xs := fun m => h (List.mem_cons_of_mem _ m)
    simp only [List.foldl_cons]
    by_cases hx0 : x = "" ∨ x = "."
    · have hstep : normStep ini acc x = acc := by simp [normStep, hx0]
      have hkeep : keepComp x = false := by
        rcases hx0 with h0 | h0 <;> simp [keepComp, h0]
      rw [hstep, ih hxs acc, List.filter_cons, hkeep]
      simp
    · have hstep : normStep ini acc x = acc ++ [x] := by
        rw [normStep, if_neg hx0, if_pos (Or.inl hx)]
      have hkeep : keepComp x = true := by
        push_neg at hx0
        simp [keepComp, hx0.1, hx0.2]
      rw [hstep, ih hxs (acc ++ [x]), List.filter_cons, hkeep]
      simp

lemma normComps_eq_filter (ini : Bool) (xs : List String) (h : ".." ∉ xs) :
    normComps xs ini = xs.filter keepComp := by
  rw [normComps, foldl_normStep_eq ini xs h []]
  simp

/-- Shape of `normpath(join(root, rel))` for a normalized absolute cache
root `"" :: rs` and a relative path with no `".."` component: the result is
the root followed by the non-trivial components of `rel`. -/
lemma normpath_join_under_root (rs rel : List String) (hne : rs ≠ [])
    (hseg : ∀ r ∈ rs, r ≠ "" ∧ r ≠ "." ∧ r ≠ "..")
    (hdd : ".." ∉ rel) (habs : isabsSeg rel = false) :
    normpathSeg (joinSeg ("" :: rs) rel) = "" :: (rs ++ rel.filter keepComp) := by
  have hjoin : joinSeg ("" :: rs) rel = ("" :: rs) ++ rel := by
    have hlast : ("" :: rs).getLast? ≠ some "" := by
      cases rs with
      | nil => exact absurd rfl hne
      | cons r t =>
        rw [List.getLast?_cons_cons]
        exact getLast?_ne_empty (r :: t) (fun x hx => (hseg x hx).1)
    rw [joinSeg, habs]
    simp [hlast]
  rw [hjoin]
  obtain ⟨r, rs2, rfl⟩ : ∃ r rs2, rs = r :: rs2 := by
    cases rs with
    | nil => exact absurd rfl hne
    | cons r t => exact ⟨r, t, rfl⟩
  have hr : r ≠ "" := (hseg r (by simp)).1
  have hini : initialSlashes (("" :: r :: rs2) ++ rel) = 1 := by
    rw [initialSlashes]
    have habs2 : isabsSeg (("" :: r :: rs2) ++ rel) = true := rfl
    rw [habs2]
    simp [List.take_succ_cons, hr]
  have hddall : ".." ∉ ("" :: r :: rs2) ++ rel := by
    intro hm
    rcases List.mem_append.1 hm with hm | hm
    · rcases List.mem_cons.1 hm with h0 | hm2
      · exact absurd h0.symm (by simp)
      · exact ((hseg _ hm2).2.2) rfl
    · exact hdd hm
  have hcomps : ∀ b : Bool, normComps (("" :: r :: rs2) ++ rel) b
      = (r :: rs2) ++ rel.filter keepComp := by
    intro b
    rw [normComps_eq_filter _ _ hddall]
    rw [show ("" :: r :: rs2) ++ rel = "" :: ((r :: rs2) ++ rel) from rfl]
    rw [List.filter_cons, List.filter_append]
    have hrs : (r :: rs2).filter keepComp = r :: rs2 := by
      rw [List.filter_eq_self]
      intro a ha
      simp [keepComp, (hseg a ha).1, (hseg a ha).2.1]
    have hk : keepComp "" = false := by simp [keepComp]
    rw [hk, hrs]
    simp
  rw [normpathSeg, hini]
  rw [hcomps]
  simp

/-! ### Claim C1 -/

/-- Claim C1: `get_local_path_from_url`: for every root reference URL,
target URL and normalized absolute cache-root directory `"" :: rs`, if the
derived relative path contains a `".."` segment or is an absolute path the
function fails (returns `none`, producing no path); and every non-failure
result is a path under the given cache root after normalization (the root's
segments are a prefix of the result, which contains no `".."` segment). -/
theorem c1_pathmapper_rejects_traversal_and_confines_to_root
    (mainp filep : ParsedUrl) (rs : List String) (hne : rs ≠ [])
    (hseg : ∀ r ∈ rs, r ≠ "" ∧ r ≠ "." ∧ r ≠ "..") :
    ((".." ∈ derivedRelativeSeg mainp filep ∨ isabsSeg (derivedRelativeSeg mainp filep) = true) →
      get_local_path_from_url mainp filep ("" :: rs) = none) ∧
    (∀ p, get_local_path_from_url mainp filep ("" :: rs) = some p →
      ("" :: rs) <+: p ∧ ".." ∉ p) := by
  constructor
  · intro hbad
    have h0 : derivedRelativeSeg mainp filep ≠ [""] := by
      intro h0
      rw [h0] at hbad
      rcases hbad with hbad | hbad
      · simp at hbad
      · simp [isabsSeg] at hbad
    rw [get_local_path_from_url, if_pos]
    rw [relativePathOf, if_neg h0]
    exact hbad
  · intro p hp
    rw [get_local_path_from_url] at hp
    by_cases hguard : ".." ∈ relativePathOf mainp filep ∨
        isabsSeg (relativePathOf mainp filep) = true
    · rw [if_pos hguard] at hp
      exact absurd hp (by simp)
    · rw [if_neg hguard] at hp
      push_neg at hguard
      have hval := normpath_join_under_root rs (relativePathOf mainp filep) hne hseg hguard.1
        (Bool.not_eq_true _ ▸ hguard.2)
      rw [hval] at hp
      obtain rfl : p = "" :: (rs ++ _) := (Option.some.inj hp).symm
      refine ⟨?_, ?_⟩
      · rw [show ("" :: (rs ++ List.filter keepComp (relativePathOf mainp filep)))
            = ("" :: rs) ++ List.filter keepComp (relativePathOf mainp filep)
          from rfl]
        exact List.prefix_append _ _
      · intro hm
        rcases List.mem_cons.1 hm with h0 | hm
        · exact absurd h0.symm (by simp)
        · rcases List.mem_append.1 hm with hm | hm
          · exact (hseg _ hm).2.2 rfl
          · exact hguard.1 (List.mem_of_mem_filter hm)

theorem c1_pathmapper_rejects_traversal_and_confines_to_root_witness :
    ["", "cache", "proj"] <+: ["", "cache", "proj", "guide.md"] ∧
      ".." ∉ ["", "cache", "proj", "guide.md"] :=
  (c1_pathmapper_rejects_traversal_and_confines_to_root
      ⟨"https", "example.com", ["", "docs", "llms.txt"], "", ""⟩
      ⟨"https", "example.com", ["", "docs", "guide.md"], "", ""⟩
      ["cache", "proj"] (by decide) (by decide)).2
    ["", "cache", "proj", "guide.md"] (by decide)

/-! ### Claim C2 -/

/-- Per-path outcome of the `read_files` loop body (doc_agent_server.py
lines 899-933): an empty entry is skipped with no output, an absolute entry
or an entry with a `".."` segment yields a security error entry, an entry
escaping the root after normalization yields a security error entry, and
otherwise the file at the normalized joined path is opened. -/
inductive ReadOutcome where
  | skippedEmpty
  | errorAbsolute
  | errorDotDot
  | errorEscape
  | readFileAt (p : List String)
deriving DecidableEq, Repr

/-- The sandbox decision taken by `read_files` for one requested path
`fileToRead` against the active documentation root `docsRootPath` (both in
split representation). -/
def read_files_check (docsRootPath fileToRead : List String) : ReadOutcome :=
  if fileToRead = [""] then .skippedEmpty
  else if isabsSeg fileToRead then .errorAbsolute
  else if ".." ∈ fileToRead then .errorDotDot
  else
    let fullPath := normpathSeg (joinSeg docsRootPath fileToRead)
    if ¬ strStartsWith fullPath docsRootPath then .errorEscape
    else .readFileAt fullPath

/-- A true list prefix gives a true string prefix (`str.startswith`) on
split representations. -/
lemma strStartsWith_of_isPrefix : ∀ (d p : List String), d <+: p → d ≠ [] →
    strStartsWith p d = true := by
  intro d
  induction d with
  | nil => intro p _ h; exact absurd rfl h
  | cons a d2 ih =>
    intro p hpre _
    obtain ⟨t, rfl⟩ := hpre
    cases d2 with
    | nil =>
      cases t <;> simp [strStartsWith, List.isPrefixOf_iff_prefix]
    | cons b d3 =>
      have htail : strStartsWith ((b :: d3) ++ t) (b :: d3) = true :=
        ih ((b :: d3) ++ t) (List.prefix_append _ _) (by simp)
      show strStartsWith (a :: ((b :: d3) ++ t)) (a :: b :: d3) = true
      simp only [strStartsWith, decide_true_eq_true, Bool.true_and, decide_eq_true_eq]
      exact htail

/-- Claim C2: the `read_files` sandbox: an absolute entry or an entry
containing a `".."` segment always produces a security error entry (never a
file read), and every entry that is actually read lies under the active
project's cache directory `"" :: rs` after normalization. -/
theorem c2_read_files_sandbox (rs fileToRead : List String) (hne : rs ≠ [])
    (hseg : ∀ r ∈ rs, r ≠ "" ∧ r ≠ "." ∧ r ≠ "..") :
    ((isabsSeg fileToRead = true ∨ ".." ∈ fileToRead) →
      read_files_check ("" :: rs) fileToRead = .errorAbsolute ∨
      read_files_check ("" :: rs) fileToRead = .errorDotDot) ∧
    (∀ p, read_files_check ("" :: rs) fileToRead = .readFileAt p →
      ("" :: rs) <+: p ∧ ".." ∉ p) := by
  constructor
  · intro hbad
    have hnotempty : fileToRead ≠ [""] := by
      rintro rfl
      rcases hbad with hbad | hbad
      · simp [isabsSeg] at hbad
      · simp at hbad
    by_cases habs : isabsSeg fileToRead = true
    · left
      rw [read_files_check, if_neg hnotempty, if_pos habs]
    · right
      have hdd : ".." ∈ fileToRead := by
        rcases hbad with hbad | hbad
        · exact absurd hbad habs
        · exact hbad
      rw [read_files_check, if_neg hnotempty, if_neg habs, if_pos hdd]
  · intro p hp
    rw [read_files_check] at hp
    by_cases h1 : fileToRead = [""]
    · rw [if_pos h1] at hp; exact absurd hp (by simp)
    · rw [if_neg h1] at hp
      by_cases h2 : isabsSeg fileToRead = true
      · rw [if_pos h2] at hp; exact absurd hp (by simp)
      · rw [if_neg h2] at hp
        by_cases h3 : ".." ∈ fileToRead
        · rw [if_pos h3] at hp; exact absurd hp (by simp)
        · rw [if_neg h3] at hp
          have hval := normpath_join_under_root rs fileToRead hne hseg h3
            (Bool.not_eq_true _ ▸ h2)
          rw [hval] at hp
          have hpre : ("" :: rs) <+: "" :: (rs ++ fileToRead.filter keepComp) :=
            List.prefix_append ("" :: rs) _
          have hstart : strStartsWith ("" :: (rs ++ fileToRead.filter keepComp)) ("" :: rs)
              = true := strStartsWith_of_isPrefix _ _ hpre (by simp)
          rw [if_neg (by simp [hstart])] at hp
          have hpeq : p = "" :: (rs ++ fileToRead.filter keepComp) :=
            (ReadOutcome.readFileAt.inj hp).symm
          subst hpeq
          refine ⟨hpre, ?_⟩
          intro hm
          rcases List.mem_cons.1 hm with h0 | hm
          · exact absurd h0.symm (by simp)
          · rcases List.mem_append.1 hm with hm | hm
            · exact (hseg _ hm).2.2 rfl
            · exact h3 (List.mem_of_mem_filter hm)

theorem c2_read_files_sandbox_witness :
    (["", "cache", "proj"] <+: ["", "cache", "proj", "api", "intro.md"] ∧
      ".." ∉ ["", "cache", "proj", "api", "intro.md"]) :=
  (c2_read_files_sandbox ["cache", "proj"] ["api", "intro.md"] (by decide) (by decide)).2
    ["", "cache", "proj", "api", "intro.md"] (by decide)

/-! ### Claims C4 and C5: `generate_detailed_index_async`

The external summarization service (`get_summary_for_file_content_async`
plus the surrounding `asyncio.gather(..., return_exceptions=True)`) is
modelled by a function `svc : String → Except String String`: `Except.ok`
is a returned summary string, `Except.error` is an exception captured by
the gather call.  Reading a file from disk is modelled by
`fsRead : String → Option String` (`none` = the read at line 405 raised, so
`content` is set to `None`). -/

/-- Characters stripped by Python `str.strip()` (the ASCII whitespace
relevant to document content). -/
def isPySpace (c : Char) : Bool :=
  c = ' ' ∨ c = '\t' ∨ c = '\n' ∨ c = '\r' ∨ c = '\x0b' ∨ c = '\x0c'

/-- Python `str.strip()`. -/
def pyStrip (s : String) : String :=
  String.mk (((s.data.dropWhile isPySpace).reverse.dropWhile isPySpace).reverse)

/-- One element of `file_data` (lines 399-417): local absolute path,
original URL, path relative to the cache root, and the file content
(`none` when the read failed). -/
structure FileEntry where
  localPath : String
  originalUrl : String
  relativePath : String
  content : Option String
deriving DecidableEq, Repr

/-- The fixed summary used for empty or unreadable files (line 426). -/
def emptyFileSummary : String := "File is empty or contains only whitespace."

/-- The summarization task created for one file (lines 419-427): a file
with non-whitespace content is sent to the external service, anything else
short-circuits to the fixed empty-file summary. -/
def summaryOutcome (svc : String → Except String String) (content : Option String) :
    Except String String :=
  match content with
  | some c => if pyStrip c ≠ "" then svc c else Except.ok emptyFileSummary
  | none => Except.ok emptyFileSummary

/-- Slicing a list into batches of size `k` (`range(0, len(tasks), batch_size)`
at line 435). -/
def chunksOf : Nat → List α → List (List α)
  | _, [] => []
  | 0, x :: xs => [x :: xs]
  | k + 1, x :: xs => (x :: xs.take k) :: chunksOf (k + 1) (xs.drop k)
termination_by _ l => l.length
decreasing_by simp [List.length_drop]; omega

/-- `summary_results` after the batch loop of lines 431-460: the tasks are
processed in batches of 10 via `asyncio.gather(..., return_exceptions=True)`
and the per-batch result lists are concatenated in order. -/
def summaryResults (svc : String → Except String String) (fds : List FileEntry) :
    List (Except String String) :=
  (chunksOf 10 (fds.map (fun fd => summaryOutcome svc fd.content))).flatten

/-- One entry of the detailed index (lines 466-485). -/
structure IndexEntry where
  localPath : String
  originalUrl : String
  relativePath : String
  summaryText : String
deriving DecidableEq, Repr

/-- Lines 473-478: a result that is an exception becomes error text, any
other result is used as the summary. -/
def renderSummary (res : Except String String) (relativePath : String) : String :=
  match res with
  | Except.ok s => s
  | Except.error e => "Error generating summary for " ++ relativePath ++ ": " ++ e

/-- Line 483: the fallback text when no summary result exists for an index. -/
def missingSummary (relativePath : String) : String :=
  "Error: No summary result available for " ++ relativePath

/-- The entry-building loop over `enumerate(file_metadata)` (lines 466-485),
including the `i < len(summary_results)` bounds check. -/
def detailedIndexEntries (svc : String → Except String String) (fds : List FileEntry) :
    List IndexEntry :=
  fds.enum.map (fun ie =>
    { localPath := ie.2.localPath
      originalUrl := ie.2.originalUrl
      relativePath := ie.2.relativePath
      summaryText :=
        match (summaryResults svc fds)[ie.1]? with
        | some res => renderSummary res ie.2.relativePath
        | none => missingSummary ie.2.relativePath })

/-- Python `str.split('/')` on the character list. -/
def splitCharsAux (sep : Char) : List Char → List (List Char)
  | [] => [[]]
  | c :: cs =>
    match splitCharsAux sep cs with
    | g :: gs => if c = sep then [] :: g :: gs else (c :: g) :: gs
    | [] => [[c]]

/-- Python `s.split('/')`. -/
def splitSlash (s : String) : List String :=
  (splitCharsAux '/' s.data).map (fun l => String.mk l)

/-- Python `'/'.join(parts)`. -/
def joinSlash : List String → String
  | [] => ""
  | [s] => s
  | s :: rest => s ++ "/" ++ joinSlash rest

/-- Length of the longest common prefix of two segment lists
(`os.path.commonprefix`). -/
def commonLen : List String → List String → Nat
  | a :: as2, b :: bs => if a = b then commonLen as2 bs + 1 else 0
  | _, _ => 0

/-- Python `posixpath.relpath(path, start)` for already-absolute arguments
(the cache paths passed at line 402 are absolute). -/
def relpathModel (path start : String) : String :=
  let startList := (splitSlash start).filter (fun x => x ≠ "")
  let pathList := (splitSlash path).filter (fun x => x ≠ "")
  let i := commonLen startList pathList
  let relList := List.replicate (startList.length - i) ".." ++ pathList.drop i
  if relList = [] then "." else joinSlash relList

/-- Python `a <= b` on strings as a Bool (lexicographic). -/
def strLe (a b : String) : Bool := decide (a ≤ b)

/-- `sorted(downloaded_files_map.keys())` at line 396. -/
def sortedKeys (docs : List (String × String)) : List String :=
  (docs.map Prod.fst).mergeSort strLe

/-- The dictionary lookup `downloaded_files_map[local_abs_path]`
(line 401); the map is modelled as an association list with distinct keys. -/
def lookupUrl (docs : List (String × String)) (p : String) : String :=
  match docs.find? (fun kv => kv.fst = p) with
  | some kv => kv.snd
  | none => ""

/-- `file_data` construction (lines 396-410): iterate over the sorted local
paths, pairing each with its original URL, relative path and content. -/
def buildFileData (fsRead : String → Option String) (docs : List (String × String))
    (cacheDirPath : String) : List FileEntry :=
  (sortedKeys docs).map (fun p =>
    { localPath := p, originalUrl := lookupUrl docs p,
      relativePath := relpathModel p cacheDirPath, content := fsRead p })

/-- `generate_detailed_index_async` (lines 387-494) as far as its output
content is concerned: the ordered list of index entries written to
`detailed_index.md`. -/
def generate_detailed_index (svc : String → Except String String)
    (fsRead : String → Option String) (docs : List (String × String))
    (cacheDirPath : String) : List IndexEntry :=
  detailedIndexEntries svc (buildFileData fsRead docs cacheDirPath)

/-- Batching and re-concatenating is the identity. -/
lemma chunksOf_flatten (k : Nat) (l : List α) : (chunksOf (k + 1) l).flatten = l := by
  generalize hn : l.length = n
  induction n using Nat.strong_induction_on generalizing l with
  | _ n ih =>
    cases l with
    | nil => simp [chunksOf]
    | cons x xs =>
      rw [chunksOf]
      simp only [List.flatten_cons]
      have hlt : (xs.drop k).length < n := by
        rw [← hn]
        simp only [List.length_drop, List.length_cons]
        omega
      rw [ih (xs.drop k).length hlt (xs.drop k) rfl]
      rw [List.cons_append, List.take_append_drop]

/-- The batched gather produces exactly the per-task outcomes in order. -/
lemma summaryResults_eq_map (svc : String → Except String String) (fds : List FileEntry) :
    summaryResults svc fds = fds.map (fun fd => summaryOutcome svc fd.content) := by
  rw [summaryResults]
  exact chunksOf_flatten 9 _

/-- Claim C4: Summarizer invariant of `generate_detailed_index_async`: for
every ordered list of N documents, exactly N summary results are produced,
matching the input order (the i-th result is the outcome for the i-th
document), and a per-item failure of the external service is converted into
error text in that item's index entry instead of propagating. -/
theorem c4_summarizer_equal_length_order_and_error_isolation
    (svc : String → Except String String) (fds : List FileEntry) :
    (summaryResults svc fds).length = fds.length ∧
    summaryResults svc fds = fds.map (fun fd => summaryOutcome svc fd.content) ∧
    (∀ (i : Nat) (fd : FileEntry), fds[i]? = some fd →
      ((detailedIndexEntries svc fds)[i]?).map IndexEntry.summaryText
        = some (renderSummary (summaryOutcome svc fd.content) fd.relativePath)) := by
  refine ⟨?_, summaryResults_eq_map svc fds, ?_⟩
  · rw [summaryResults_eq_map]
    exact List.length_map _ _
  · intro i fd hfd
    have hres : (summaryResults svc fds)[i]? = some (summaryOutcome svc fd.content) := by
      rw [summaryResults_eq_map, List.getElem?_map, hfd]
      rfl
    rw [detailedIndexEntries, List.getElem?_map, List.getElem?_enum, hfd]
    simp [hres]

theorem c4_summarizer_equal_length_order_and_error_isolation_witness :
    (summaryResults (fun _ => Except.error "timeout")
        [⟨"/c/a.md", "http://h/a.md", "a.md", some "hello"⟩]).length = 1 ∧
    summaryResults (fun _ => Except.error "timeout")
        [⟨"/c/a.md", "http://h/a.md", "a.md", some "hello"⟩]
      = [Except.error "timeout"] ∧
    ((detailedIndexEntries (fun _ => Except.error "timeout")
        [⟨"/c/a.md", "http://h/a.md", "a.md", some "hello"⟩])[0]?).map IndexEntry.summaryText
      = some "Error generating summary for a.md: timeout" := by
  have h := c4_summarizer_equal_length_order_and_error_isolation
    (fun _ => Except.error "timeout")
    [⟨"/c/a.md", "http://h/a.md", "a.md", some "hello"⟩]
  refine ⟨h.1, ?_, ?_⟩
  · rw [h.2.1]
    rfl
  · have h3 := h.2.2 0 ⟨"/c/a.md", "http://h/a.md", "a.md", some "hello"⟩ (by rfl)
    rw [h3]
    rfl

lemma enum_map_snd_comp (l : List β) (F : β → γ) :
    l.enum.map (fun ie => F ie.2) = l.map F := by
  conv_rhs => rw [← List.enum_map_snd l]
  rw [List.map_map]
  rfl

lemma entries_localPath_generic (g : Nat × FileEntry → IndexEntry)
    (hg : ∀ ie, (g ie).localPath = ie.2.localPath) (l : List FileEntry) :
    (l.enum.map g).map IndexEntry.localPath = l.map FileEntry.localPath := by
  rw [List.map_map]
  rw [show (IndexEntry.localPath ∘ g) = fun ie : Nat × FileEntry => ie.2.localPath from
    funext fun ie => hg ie]
  exact enum_map_snd_comp l FileEntry.localPath

/-- The local paths of the generated index entries are exactly the sorted
input keys. -/
lemma generate_detailed_index_map_localPath (svc : String → Except String String)
    (fsRead : String → Option String) (docs : List (String × String)) (cacheDirPath : String) :
    (generate_detailed_index svc fsRead docs cacheDirPath).map IndexEntry.localPath
      = sortedKeys docs := by
  rw [generate_detailed_index, detailedIndexEntries,
    entries_localPath_generic _ (fun ie => rfl) _, buildFileData, List.map_map]
  have : (FileEntry.localPath ∘ fun p =>
      ({ localPath := p, originalUrl := lookupUrl docs p,
         relativePath := relpathModel p cacheDirPath, content := fsRead p } : FileEntry))
      = id := rfl
  rw [this, List.map_id]

lemma strLe_trans (a b c : String) (h1 : strLe a b = true) (h2 : strLe b c = true) :
    strLe a c = true := by
  simp only [strLe, decide_eq_true_eq] at h1 h2 ⊢
  exact le_trans h1 h2

lemma strLe_total (a b : String) : (strLe a b || strLe b a) = true := by
  simp only [strLe, Bool.or_eq_true, decide_eq_true_eq]
  exact le_total a b

lemma lookupUrl_mem (docs : List (String × String)) (p : String)
    (hp : p ∈ docs.map Prod.fst) : (p, lookupUrl docs p) ∈ docs := by
  obtain ⟨kv, hkv, rfl⟩ := List.mem_map.1 hp
  cases hfind : docs.find? (fun kv2 => kv2.fst = kv.fst) with
  | none =>
    rw [List.find?_eq_none] at hfind
    exact absurd (by simp) (hfind kv hkv)
  | some kv0 =>
    have h1 : kv0.fst = kv.fst := by simpa using List.find?_some hfind
    have h2 := List.mem_of_find?_eq_some hfind
    rw [lookupUrl, hfind, ← h1, Prod.mk.eta]
    exact h2

/-- Claim C5: IndexBuilder completeness and order: the generated detailed
index has exactly one entry per input document (its local paths are a
permutation of the input keys), in ascending local-path order, each entry
carrying the document's relative path, its origin URL, and its rendered
summary (or error text), with no document omitted even when some
summarizations failed. -/
theorem c5_index_builder_completeness_and_order
    (svc : String → Except String String) (fsRead : String → Option String)
    (docs : List (String × String)) (cacheDirPath : String)
    (hnd : (docs.map Prod.fst).Nodup) :
    ((generate_detailed_index svc fsRead docs cacheDirPath).map IndexEntry.localPath).Perm
        (docs.map Prod.fst) ∧
    ((generate_detailed_index svc fsRead docs cacheDirPath).map
        IndexEntry.localPath).Sorted (· ≤ ·) ∧
    (generate_detailed_index svc fsRead docs cacheDirPath).length = docs.length ∧
    (∀ e ∈ generate_detailed_index svc fsRead docs cacheDirPath,
      (e.localPath, e.originalUrl) ∈ docs ∧
      e.relativePath = relpathModel e.localPath cacheDirPath ∧
      e.summaryText
        = renderSummary (summaryOutcome svc (fsRead e.localPath)) e.relativePath) := by
  have hmap := generate_detailed_index_map_localPath svc fsRead docs cacheDirPath
  have hperm : (sortedKeys docs).Perm (docs.map Prod.fst) :=
    List.mergeSort_perm (docs.map Prod.fst) strLe
  refine ⟨?_, ?_, ?_, ?_⟩
  · rw [hmap]; exact hperm
  · rw [hmap, sortedKeys]
    exact (List.sorted_mergeSort strLe_trans strLe_total (docs.map Prod.fst)).imp
      (fun h => by simpa [strLe] using h)
  · have h1 : ((generate_detailed_index svc fsRead docs cacheDirPath).map
        IndexEntry.localPath).length = (docs.map Prod.fst).length := by
      rw [hmap]; exact hperm.length_eq
    simpa using h1
  · intro e he
    rw [generate_detailed_index, detailedIndexEntries] at he
    obtain ⟨ie, hie, rfl⟩ := List.mem_map.1 he
    have hget : (buildFileData fsRead docs cacheDirPath)[ie.1]? = some ie.2 :=
      List.mem_enum_iff_getElem?.1 hie
    have hmem2 : ie.2 ∈ buildFileData fsRead docs cacheDirPath :=
      List.getElem?_mem hget
    rw [buildFileData] at hmem2
    obtain ⟨p, hp, hfd⟩ := List.mem_map.1 hmem2
    have hres : (summaryResults svc (buildFileData fsRead docs cacheDirPath))[ie.1]?
        = some (summaryOutcome svc ie.2.content) := by
      rw [summaryResults_eq_map, List.getElem?_map, hget]
      rfl
    have hpmem : p ∈ docs.map Prod.fst := hperm.mem_iff.1 hp
    refine ⟨?_, ?_, ?_⟩
    · have h1 : ie.2.localPath = p := by rw [← hfd]
      have h2 : ie.2.originalUrl = lookupUrl docs p := by rw [← hfd]
      simpa [h1, h2] using lookupUrl_mem docs p hpmem
    · rw [← hfd]
    · simp only [hres]
      rw [← hfd]

theorem c5_index_builder_completeness_and_order_witness :
    (((generate_detailed_index (fun s => Except.ok ("S:" ++ s)) (fun _ => some "body")
          [("/c/b.md", "http://h/b"), ("/c/a.md", "http://h/a")] "/c").map
        IndexEntry.localPath).Perm ["/c/b.md", "/c/a.md"] ∧
      ((generate_detailed_index (fun s => Except.ok ("S:" ++ s)) (fun _ => some "body")
          [("/c/b.md", "http://h/b"), ("/c/a.md", "http://h/a")] "/c").map
        IndexEntry.localPath).Sorted (· ≤ ·) ∧
      (generate_detailed_index (fun s => Except.ok ("S:" ++ s)) (fun _ => some "body")
          [("/c/b.md", "http://h/b"), ("/c/a.md", "http://h/a")] "/c").length = 2 ∧
      (∀ e ∈ generate_detailed_index (fun s => Except.ok ("S:" ++ s)) (fun _ => some "body")
          [("/c/b.md", "http://h/b"), ("/c/a.md", "http://h/a")] "/c",
        (e.localPath, e.originalUrl) ∈ [("/c/b.md", "http://h/b"), ("/c/a.md", "http://h/a")] ∧
        e.relativePath = relpathModel e.localPath "/c" ∧
        e.summaryText = renderSummary (summaryOutcome (fun s => Except.ok ("S:" ++ s))
          ((fun _ : String => some "body") e.localPath)) e.relativePath)) := by
  have h := c5_index_builder_completeness_and_order (fun s => Except.ok ("S:" ++ s))
    (fun _ => some "body") [("/c/b.md", "http://h/b"), ("/c/a.md", "http://h/a")] "/c"
    (by decide)
  simpa using h

/-! ### Claim C3: `scrape_documentation_site` (lines 1445-1526)

The crawl loop is embedded as a small-step transition system over the
shared state (visited set, to-visit set, in-flight worker map, processed
counter).  URL normalization (`normalize_url`), the per-page fetch outcome
(`fetchLinks`, `none` = failed scrape) and the scope filter
(`norm_link.startswith(subdomain_to_keep.rstrip('/'))`) are parameters, so
the theorems hold for every link graph.  `history` is the ghost list of
URLs submitted to the worker pool, in submission order. -/

/-- Shared crawl state of `scrape_documentation_site`. -/
structure CrawlState (Url : Type) where
  visited : Finset Url
  queue : Finset Url
  inflight : List Url
  processed : Nat
  history : List Url

section Crawler

variable {Url : Type} [DecidableEq Url]

/-- Lines 1507-1514: each discovered link is normalized and added to the
to-visit set when it is in scope, not yet visited, and not already queued. -/
def enqueueLinks (norm : Url → Url) (inScope : Url → Bool) (s : CrawlState Url)
    (links : List Url) : Finset Url :=
  s.queue ∪ ((links.map norm).filter
    (fun n => inScope n && decide (n ∉ s.visited) && decide (n ∉ s.queue))).toFinset

/-- One scheduler step of the crawl loop (lines 1463-1525).  `submitSkip`
pops an already-visited URL (line 1471), `submit` marks a URL visited and
dispatches it (lines 1474-1483), `completeOk`/`completeFail` retire a
finished worker, feeding discovered links back into the queue on success
(lines 1497-1517). -/
inductive CrawlStep (norm : Url → Url) (fetchLinks : Url → Option (List Url))
    (inScope : Url → Bool) (maxWorkers : Nat) : CrawlState Url → CrawlState Url → Prop where
  | submitSkip (s : CrawlState Url) (u : Url) (hu : u ∈ s.queue)
      (hroom : s.inflight.length < maxWorkers) (hv : norm u ∈ s.visited) :
      CrawlStep norm fetchLinks inScope maxWorkers s { s with queue := s.queue.erase u }
  | submit (s : CrawlState Url) (u : Url) (hu : u ∈ s.queue)
      (hroom : s.inflight.length < maxWorkers) (hv : norm u ∉ s.visited) :
      CrawlStep norm fetchLinks inScope maxWorkers s
        { visited := insert (norm u) s.visited
          queue := s.queue.erase u
          inflight := norm u :: s.inflight
          processed := s.processed + 1
          history := s.history ++ [norm u] }
  | completeOk (s : CrawlState Url) (u : Url) (links : List Url) (hu : u ∈ s.inflight)
      (hres : fetchLinks u = some links) :
      CrawlStep norm fetchLinks inScope maxWorkers s
        { s with inflight := s.inflight.erase u
                 queue := enqueueLinks norm inScope s links }
  | completeFail (s : CrawlState Url) (u : Url) (hu : u ∈ s.inflight)
      (hres : fetchLinks u = none) :
      CrawlStep norm fetchLinks inScope maxWorkers s
        { s with inflight := s.inflight.erase u }

/-- Initial crawl state (lines 1446-1451). -/
def crawlInit (startUrl : Url) : CrawlState Url :=
  { visited := ∅, queue := {startUrl}, inflight := [], processed := 0, history := [] }

/-- The crawl loop exits when the to-visit set is empty and no worker is
in flight (line 1463). -/
def CrawlTerminal (s : CrawlState Url) : Prop := s.queue = ∅ ∧ s.inflight = []

/-- Crawl invariant relative to a finite universe `U` of normalized
reachable URLs: queued URLs normalize into `U`, the visited-set size equals
the processed counter, no URL was submitted twice, and every submitted URL
(in particular every in-flight one) is already in the visited set. -/
def CrawlInv (norm : Url → Url) (U : Finset Url) (s : CrawlState Url) : Prop :=
  (∀ u ∈ s.queue, norm u ∈ U) ∧
  s.visited.card = s.processed ∧
  s.history.Nodup ∧
  (∀ u ∈ s.history, u ∈ s.visited) ∧
  (∀ u ∈ s.inflight, u ∈ s.visited)

/-- Termination measure: unvisited universe size, then in-flight count,
then queue size, compared lexicographically. -/
def crawlMeasure (U : Finset Url) (s : CrawlState Url) : Nat × Nat × Nat :=
  ((U \ s.visited).card, s.inflight.length, s.queue.card)

end Crawler

/-- The (well-founded) lexicographic order on the crawl measure. -/
def MeasureLt : Nat × Nat × Nat → Nat × Nat × Nat → Prop :=
  Prod.Lex Nat.lt (Prod.Lex Nat.lt Nat.lt)

lemma measureLt_wf : WellFounded MeasureLt :=
  (Nat.lt_wfRel.wf).prod_lex ((Nat.lt_wfRel.wf).prod_lex (Nat.lt_wfRel.wf))

section CrawlerProofs

variable {Url : Type} [DecidableEq Url]
variable (norm : Url → Url) (fetchLinks : Url → Option (List Url))
variable (inScope : Url → Bool) (maxWorkers : Nat)

lemma crawlStep_visited_mono {s s2 : CrawlState Url}
    (h : CrawlStep norm fetchLinks inScope maxWorkers s s2) : s.visited ⊆ s2.visited := by
  cases h with
  | submitSkip u hu hroom hv => exact Finset.Subset.refl _
  | submit u hu hroom hv => exact Finset.subset_insert _ _
  | completeOk u links hu hres => exact Finset.Subset.refl _
  | completeFail u hu hres => exact Finset.Subset.refl _

lemma crawlStep_inv (U : Finset Url)
    (hclosed : ∀ u links, fetchLinks u = some links → ∀ l ∈ links, norm (norm l) ∈ U)
    {s s2 : CrawlState Url} (hinv : CrawlInv norm U s)
    (h : CrawlStep norm fetchLinks inScope maxWorkers s s2) : CrawlInv norm U s2 := by
  obtain ⟨hq, hcard, hnd, hhist, hinf⟩ := hinv
  cases h with
  | submitSkip u hu hroom hv =>
    exact ⟨fun v hv2 => hq v (Finset.mem_of_mem_erase hv2), hcard, hnd, hhist, hinf⟩
  | submit u hu hroom hv =>
    refine ⟨fun v hv2 => hq v (Finset.mem_of_mem_erase hv2), ?_, ?_, ?_, ?_⟩
    · rw [show (insert (norm u) s.visited).card = s.visited.card + 1 from
        Finset.card_insert_of_not_mem hv, hcard]
    · have hnu : norm u ∉ s.history := fun hmem => hv (hhist _ hmem)
      simp [List.nodup_append, hnd, hnu]
    · intro v hv2
      rcases List.mem_append.1 hv2 with hm | hm
      · exact Finset.mem_insert_of_mem (hhist v hm)
      · have : v = norm u := by simpa using hm
        subst this
        exact Finset.mem_insert_self _ _
    · intro v hv2
      rcases List.mem_cons.1 hv2 with rfl | hm
      · exact Finset.mem_insert_self _ _
      · exact Finset.mem_insert_of_mem (hinf v hm)
  | completeOk u links hu hres =>
    refine ⟨?_, hcard, hnd, hhist, fun v hv2 => hinf v (List.mem_of_mem_erase hv2)⟩
    intro v hv2
    have hv3 : v ∈ enqueueLinks norm inScope s links := hv2
    rw [enqueueLinks] at hv3
    rcases Finset.mem_union.1 hv3 with hm | hm
    · exact hq v hm
    · rw [List.mem_toFinset] at hm
      obtain ⟨l, hl, rfl⟩ := List.mem_map.1 (List.mem_of_mem_filter hm)
      exact hclosed u links hres l hl
  | completeFail u hu hres =>
    exact ⟨hq, hcard, hnd, hhist, fun v hv2 => hinf v (List.mem_of_mem_erase hv2)⟩

lemma crawlStep_measure_lt (U : Finset Url) {s s2 : CrawlState Url}
    (hq : ∀ u ∈ s.queue, norm u ∈ U)
    (h : CrawlStep norm fetchLinks inScope maxWorkers s s2) :
    MeasureLt (crawlMeasure U s2) (crawlMeasure U s) := by
  cases h with
  | submitSkip u hu hroom hv =>
    unfold MeasureLt crawlMeasure
    exact Prod.Lex.right _ (Prod.Lex.right _ (Finset.card_erase_lt_of_mem hu))
  | submit u hu hroom hv =>
    unfold MeasureLt crawlMeasure
    apply Prod.Lex.left
    show (U \ insert (norm u) s.visited).card < (U \ s.visited).card
    rw [Finset.sdiff_insert]
    exact Finset.card_erase_lt_of_mem (Finset.mem_sdiff.2 ⟨hq u hu, hv⟩)
  | completeOk u links hu hres =>
    unfold MeasureLt crawlMeasure
    apply Prod.Lex.right
    apply Prod.Lex.left
    show (s.inflight.erase u).length < s.inflight.length
    rw [List.length_erase_of_mem hu]
    exact Nat.sub_lt (List.length_pos.2 (List.ne_nil_of_mem hu)) Nat.one_pos
  | completeFail u hu hres =>
    unfold MeasureLt crawlMeasure
    apply Prod.Lex.right
    apply Prod.Lex.left
    show (s.inflight.erase u).length < s.inflight.length
    rw [List.length_erase_of_mem hu]
    exact Nat.sub_lt (List.length_pos.2 (List.ne_nil_of_mem hu)) Nat.one_pos

lemma crawl_progress (hmw : 1 ≤ maxWorkers) (s : CrawlState Url) (hnt : ¬ CrawlTerminal s) :
    ∃ s2, CrawlStep norm fetchLinks inScope maxWorkers s s2 := by
  rw [CrawlTerminal] at hnt
  cases hinfl : s.inflight with
  | cons u t =>
    have hu : u ∈ s.inflight := by rw [hinfl]; exact List.mem_cons_self u t
    cases hres : fetchLinks u with
    | some links => exact ⟨_, CrawlStep.completeOk s u links hu hres⟩
    | none => exact ⟨_, CrawlStep.completeFail s u hu hres⟩
  | nil =>
    have hqne : s.queue ≠ ∅ := by
      intro hq0
      exact hnt ⟨hq0, hinfl⟩
    obtain ⟨u, hu⟩ := Finset.nonempty_iff_ne_empty.2 hqne
    have hroom : s.inflight.length < maxWorkers := by
      rw [hinfl]
      simpa using hmw
    by_cases hv : norm u ∈ s.visited
    · exact ⟨_, CrawlStep.submitSkip s u hu hroom hv⟩
    · exact ⟨_, CrawlStep.submit s u hu hroom hv⟩

lemma crawl_inv_reachable (U : Finset Url) (startUrl : Url)
    (hstart : norm startUrl ∈ U)
    (hclosed : ∀ u links, fetchLinks u = some links → ∀ l ∈ links, norm (norm l) ∈ U)
    (s : CrawlState Url)
    (h : Relation.ReflTransGen (CrawlStep norm fetchLinks inScope maxWorkers)
      (crawlInit startUrl) s) :
    CrawlInv norm U s := by
  induction h with
  | refl =>
    refine ⟨?_, by simp [crawlInit, CrawlInv], by simp [crawlInit], by simp [crawlInit],
      by simp [crawlInit]⟩
    intro u hu
    rw [show (crawlInit startUrl).queue = {startUrl} from rfl, Finset.mem_singleton] at hu
    subst hu
    exact hstart
  | tail hsteps hstep ih =>
    exact crawlStep_inv norm fetchLinks inScope maxWorkers U hclosed ih hstep

/-- Claim C3: crawler termination and no-duplicate dispatch for
`scrape_documentation_site`: for every finite normalized link universe `U`
reachable from the start URL and every worker-pool size, (1) the visited
set only grows along every step; (2) in every reachable state the
visited-set size equals the processed count, no normalized URL was
submitted more than once, and every submitted URL was added to the visited
set at submission (before its fetch completes); (3) every step strictly
decreases a well-founded measure, so every crawl execution is finite; and
(4) with at least one worker, every non-terminal state can take a step. -/
theorem c3_crawler_terminates_without_duplicate_dispatch
    {Url : Type} [DecidableEq Url] (norm : Url → Url)
    (fetchLinks : Url → Option (List Url)) (inScope : Url → Bool) (maxWorkers : Nat)
    (startUrl : Url) (U : Finset Url) (hstart : norm startUrl ∈ U)
    (hclosed : ∀ u links, fetchLinks u = some links → ∀ l ∈ links, norm (norm l) ∈ U) :
    (∀ s s2 : CrawlState Url,
      CrawlStep norm fetchLinks inScope maxWorkers s s2 → s.visited ⊆ s2.visited) ∧
    (∀ s : CrawlState Url,
      Relation.ReflTransGen (CrawlStep norm fetchLinks inScope maxWorkers)
        (crawlInit startUrl) s →
      s.visited.card = s.processed ∧ s.history.Nodup ∧
        (∀ u ∈ s.history, u ∈ s.visited) ∧ (∀ u ∈ s.inflight, u ∈ s.visited)) ∧
    (∀ s s2 : CrawlState Url,
      Relation.ReflTransGen (CrawlStep norm fetchLinks inScope maxWorkers)
        (crawlInit startUrl) s →
      CrawlStep norm fetchLinks inScope maxWorkers s s2 →
      MeasureLt (crawlMeasure U s2) (crawlMeasure U s)) ∧
    WellFounded MeasureLt ∧
    (1 ≤ maxWorkers → ∀ s : CrawlState Url, ¬ CrawlTerminal s →
      ∃ s2, CrawlStep norm fetchLinks inScope maxWorkers s s2) := by
  refine ⟨fun s s2 h => crawlStep_visited_mono norm fetchLinks inScope maxWorkers h,
    ?_, ?_, measureLt_wf, fun hmw s hnt =>
      crawl_progress norm fetchLinks inScope maxWorkers hmw s hnt⟩
  · intro s hreach
    obtain ⟨hq, hcard, hnd, hhist, hinf⟩ :=
      crawl_inv_reachable norm fetchLinks inScope maxWorkers U startUrl hstart hclosed s hreach
    exact ⟨hcard, hnd, hhist, hinf⟩
  · intro s s2 hreach hstep
    obtain ⟨hq, _, _, _, _⟩ :=
      crawl_inv_reachable norm fetchLinks inScope maxWorkers U startUrl hstart hclosed s hreach
    exact crawlStep_measure_lt norm fetchLinks inScope maxWorkers U hq hstep

theorem c3_crawler_terminates_without_duplicate_dispatch_witness :
    ((∀ s s2 : CrawlState Bool,
      CrawlStep id (fun _ => some []) (fun _ => true) 1 s s2 → s.visited ⊆ s2.visited) ∧
    (∀ s : CrawlState Bool,
      Relation.ReflTransGen (CrawlStep id (fun _ => some []) (fun _ => true) 1)
        (crawlInit false) s →
      s.visited.card = s.processed ∧ s.history.Nodup ∧
        (∀ u ∈ s.history, u ∈ s.visited) ∧ (∀ u ∈ s.inflight, u ∈ s.visited)) ∧
    (∀ s s2 : CrawlState Bool,
      Relation.ReflTransGen (CrawlStep id (fun _ => some []) (fun _ => true) 1)
        (crawlInit false) s →
      CrawlStep id (fun _ => some []) (fun _ => true) 1 s s2 →
      MeasureLt (crawlMeasure {false} s2) (crawlMeasure {false} s)) ∧
    WellFounded MeasureLt ∧
    (1 ≤ 1 → ∀ s : CrawlState Bool, ¬ CrawlTerminal s →
      ∃ s2, CrawlStep id (fun _ => some []) (fun _ => true) 1 s s2)) :=
  c3_crawler_terminates_without_duplicate_dispatch id (fun _ => some [])
    (fun _ => true) 1 false {false} (by decide)
    (fun u links h l hl => by
      have h2 : links = ([] : List Bool) := (Option.some.inj h).symm
      subst h2
      exact absurd hl (List.not_mem_nil l))

end CrawlerProofs

/-! ### Claims C6 and C7: `setup_documentation_source` (lines 497-838)

The function is embedded as a state machine over the per-project cache
state, producing an ordered trace of its externally visible I/O events.
All external collaborators are world parameters fixed for a run: the
fetched manifest and llms-full contents, the SHA-256 hash (`hashF`), the
markdown-link extraction `linksOf` (the `re.findall` + `urljoin` block),
the mode decision of `detect_llms_txt_url_type`, the per-URL scrape result,
the per-URL local path (`get_local_path_from_url`, verified separately) and
the per-URL download result.  File writes are modelled as succeeding; the
manifest and llms-full downloads are the inputs of the cache-validity check
(spec section 4.2) and appear as their own two events. -/

/-- Externally visible I/O events of one ingestion run. -/
inductive IngestEvent where
  | fetchManifest
  | fetchLlmsFull
  | fetchDocument (url : String)
  | summarizeDocument (path : String)
  | writeDocument (path : String)
  | writeIndexTxt
  | writeDetailedIndex
  | writeMarker
  | writeHash
deriving DecidableEq, Repr

/-- The deterministic environment of one ingestion run. -/
structure IngestWorld where
  manifest : String
  llmsFullContent : Option String
  hashF : String → String
  linksOf : String → List String
  urlTypeIsWebPages : Bool
  scrapeFileFor : String → Option String
  pathFor : String → Option String
  fetchDoc : String → Option String

/-- On-disk cache state of one project: cache directory, completion
marker, stored hash, cached `_index.txt` content (`none` = missing or
unreadable), presence of `detailed_index.md`, and the stored document
files. -/
structure CacheState where
  dirExists : Bool
  markerExists : Bool
  savedHash : Option String
  indexTxt : Option String
  detailedIndexExists : Bool
  docFiles : List String
deriving DecidableEq, Repr

/-- Direct-download mode, lines 757-781: each markdown link with a
derivable local path is attempted. -/
def directWithPath (w : IngestWorld) : List (String × String) :=
  (w.linksOf w.manifest).filterMap (fun u => (w.pathFor u).map (fun p => (u, p)))

/-- URLs fetched by the fresh-download phase: the deduplicated page list in
scrape mode (lines 691-719), the path-mapped markdown links in direct mode
(lines 775-783). -/
def freshAttempted (w : IngestWorld) : List String :=
  if w.urlTypeIsWebPages then (w.linksOf w.manifest).dedup
  else (directWithPath w).map Prod.fst

/-- Local paths of the documents actually saved by the fresh-download phase
(lines 722-737 in scrape mode, 787-811 in direct mode). -/
def freshSaved (w : IngestWorld) : List String :=
  if w.urlTypeIsWebPages then ((w.linksOf w.manifest).dedup).filterMap w.scrapeFileFor
  else (directWithPath w).filterMap (fun up =>
    match w.fetchDoc up.1 with
    | some _ => some up.2
    | none => none)

/-- The fresh-download phase (lines 652-838): create the cache directory,
save `_index.txt`, fetch every unit, write the retrieved documents, generate
the detailed index when at least one document was saved (lines 815-825),
then write the completion marker (line 827) and the stored hash (line 835)
as the final two steps. -/
def freshDownload (w : IngestWorld) (st : CacheState) (currentHash : String) :
    CacheState × List IngestEvent :=
  let saved := freshSaved w
  ( { dirExists := true, markerExists := true, savedHash := some currentHash,
      indexTxt := some w.manifest, detailedIndexExists := decide (saved ≠ []),
      docFiles := st.docFiles ∪ saved },
    [IngestEvent.writeIndexTxt]
      ++ (freshAttempted w).map IngestEvent.fetchDocument
      ++ saved.map IngestEvent.writeDocument
      ++ (if saved ≠ [] then
            saved.map IngestEvent.summarizeDocument ++ [IngestEvent.writeDetailedIndex]
          else [])
      ++ [IngestEvent.writeMarker, IngestEvent.writeHash] )

/-- Reconstruction of the downloaded-files map when only the detailed index
must be regenerated (lines 610-633): map the cached index links to existing
local files, falling back to walking the cache directory. -/
def reconstructDocs (w : IngestWorld) (st : CacheState) (idx : String) : List String :=
  let fromIndex := (w.linksOf idx).filterMap (fun u =>
    match w.pathFor u with
    | some p => if p ∈ st.docFiles then some p else none
    | none => none)
  if fromIndex ≠ [] then fromIndex else st.docFiles

/-- `setup_documentation_source` as a state transformer: returns the
success flag, the cache state after the run, and the ordered event trace.
Lines 589-651 are the cache-validity branch: with a directory, a completion
marker and a readable cached index, the stored hash is compared against the
hash of the freshly fetched llms-full content; on a match with an existing
detailed index nothing else runs, otherwise only the detailed index is
regenerated from cached documents; an unreadable cached index removes the
marker and falls through to the fresh download. -/
def setup_documentation_source_run (w : IngestWorld) (st : CacheState) :
    Bool × CacheState × List IngestEvent :=
  let pre := [IngestEvent.fetchManifest, IngestEvent.fetchLlmsFull]
  let currentHash := w.hashF ((w.llmsFullContent).getD w.manifest)
  if st.dirExists ∧ st.markerExists then
    match st.indexTxt with
    | some idx =>
      if ¬ st.detailedIndexExists ∨ ¬ (st.savedHash = some currentHash) then
        let docs := reconstructDocs w st idx
        ( true,
          { st with detailedIndexExists := true, savedHash := some currentHash },
          pre ++ docs.map IngestEvent.summarizeDocument
            ++ [IngestEvent.writeDetailedIndex, IngestEvent.writeHash] )
      else (true, st, pre)
    | none =>
      let st2 : CacheState := { st with markerExists := false, detailedIndexExists := false }
      let res := freshDownload w st2 currentHash
      (true, res.1, pre ++ res.2)
  else
    let res := freshDownload w st currentHash
    (true, res.1, pre ++ res.2)

/-- Number of document fetches (`download_file` / page scrapes for
referenced documents) in a trace. -/
def docFetchCount (tr : List IngestEvent) : Nat :=
  (tr.filter (fun e => match e with
    | IngestEvent.fetchDocument _ => true
    | _ => false)).length

/-- Number of summarization tasks in a trace. -/
def summarizeCount (tr : List IngestEvent) : Nat :=
  (tr.filter (fun e => match e with
    | IngestEvent.summarizeDocument _ => true
    | _ => false)).length

/-- Number of document writes in a trace. -/
def docWriteCount (tr : List IngestEvent) : Nat :=
  (tr.filter (fun e => match e with
    | IngestEvent.writeDocument _ => true
    | _ => false)).length

/-- After any successful run that started from a cache without stale
document files, the cache is fresh: directory, marker, matching stored
hash, a readable cached index, and either a detailed index or no documents
at all. -/
lemma run_success_state (w : IngestWorld) (st0 st1 : CacheState) (ok1 : Bool)
    (tr1 : List IngestEvent) (hclean : st0.docFiles = [])
    (h1 : setup_documentation_source_run w st0 = (ok1, st1, tr1)) :
    st1.dirExists = true ∧ st1.markerExists = true ∧
    st1.savedHash = some (w.hashF ((w.llmsFullContent).getD w.manifest)) ∧
    (∃ idx, st1.indexTxt = some idx) ∧
    (st1.detailedIndexExists = true ∨ st1.docFiles = []) := by
  have hfresh : ∀ st : CacheState, st.docFiles = [] →
      ∀ currentHash, ((freshDownload w st currentHash).1.detailedIndexExists = true ∨
        (freshDownload w st currentHash).1.docFiles = []) := by
    intro st hst currentHash
    by_cases hs : freshSaved w = []
    · right
      simp [freshDownload, hs, hst]
    · left
      simp [freshDownload, hs]
  rw [setup_documentation_source_run] at h1
  split at h1
  case isTrue hd =>
    split at h1
    case h_1 idx hidx =>
      split at h1
      · injection h1 with h1a h1b
        injection h1b with h1c h1d
        subst h1c
        subst h1d
        exact ⟨hd.1, hd.2, rfl, ⟨idx, hidx⟩, Or.inl rfl⟩
      case isFalse hregen =>
        push_neg at hregen
        injection h1 with h1a h1b
        injection h1b with h1c h1d
        subst h1c
        subst h1d
        exact ⟨hd.1, hd.2, hregen.2, ⟨idx, hidx⟩, Or.inl (by simpa using hregen.1)⟩
    case h_2 hidx =>
      injection h1 with h1a h1b
      injection h1b with h1c h1d
      subst h1c
      subst h1d
      exact ⟨rfl, rfl, rfl, ⟨w.manifest, rfl⟩, hfresh _ hclean _⟩
  case isFalse hd =>
    injection h1 with h1a h1b
    injection h1b with h1c h1d
    subst h1c
    subst h1d
    exact ⟨rfl, rfl, rfl, ⟨w.manifest, rfl⟩, hfresh _ hclean _⟩

/-- With no stored documents, the regeneration map reconstruction comes up
empty. -/
lemma reconstructDocs_nil (w : IngestWorld) (st : CacheState) (idx : String)
    (h : st.docFiles = []) : reconstructDocs w st idx = [] := by
  have hnil : (w.linksOf idx).filterMap (fun u =>
      match w.pathFor u with
      | some p => if p ∈ st.docFiles then some p else none
      | none => none) = [] := by
    rw [List.filterMap_eq_nil_iff]
    intro u hu
    cases w.pathFor u with
    | some p => rw [h]; simp
    | none => rfl
  simp only [reconstructDocs]
  rw [hnil]
  simp [h]

/-- The two possible second-run traces on a fresh cache: a pure
cache-validity check when the detailed index is present, or an
index-regeneration pass otherwise. -/
lemma second_run_shape (w : IngestWorld) (st : CacheState)
    (hdir : st.dirExists = true) (hmk : st.markerExists = true) (idx : String)
    (hidx : st.indexTxt = some idx)
    (hsh : st.savedHash = some (w.hashF ((w.llmsFullContent).getD w.manifest))) :
    (st.detailedIndexExists = true →
      setup_documentation_source_run w st
        = (true, st, [IngestEvent.fetchManifest, IngestEvent.fetchLlmsFull])) ∧
    (st.detailedIndexExists = false →
      setup_documentation_source_run w st
        = (true,
            { st with
              detailedIndexExists := true,
              savedHash := some (w.hashF ((w.llmsFullContent).getD w.manifest)) },
            [IngestEvent.fetchManifest, IngestEvent.fetchLlmsFull]
              ++ (reconstructDocs w st idx).map IngestEvent.summarizeDocument
              ++ [IngestEvent.writeDetailedIndex, IngestEvent.writeHash])) := by
  constructor
  · intro hdx
    rw [setup_documentation_source_run, if_pos ⟨hdir, hmk⟩]
    simp only [hidx]
    rw [if_neg (by simp [hdx, hsh])]
  · intro hdx
    rw [setup_documentation_source_run, if_pos ⟨hdir, hmk⟩]
    simp only [hidx]
    rw [if_pos (by simp [hdx])]

/-- Claim C6: ingestion idempotence: a second `setup_documentation_source`
run on the same source with an unchanged manifest (identical world, hence
identical content hash), after a first run that started from a cache
without stale document files, performs zero document fetches, zero
summarization tasks and zero document writes — only the cache-validity
check (the manifest and llms-full downloads and the hash comparison) runs. -/
theorem c6_second_ingestion_run_is_checkValidity_only
    (w : IngestWorld) (st0 st1 : CacheState) (ok1 : Bool) (tr1 : List IngestEvent)
    (hclean : st0.docFiles = [])
    (h1 : setup_documentation_source_run w st0 = (ok1, st1, tr1)) :
    docFetchCount (setup_documentation_source_run w st1).2.2 = 0 ∧
    summarizeCount (setup_documentation_source_run w st1).2.2 = 0 ∧
    docWriteCount (setup_documentation_source_run w st1).2.2 = 0 := by
  obtain ⟨hdir, hmk, hsh, ⟨idx, hidx⟩, hdet⟩ :=
    run_success_state w st0 st1 ok1 tr1 hclean h1
  have hshape := second_run_shape w st1 hdir hmk idx hidx hsh
  by_cases hdx : st1.detailedIndexExists = true
  · rw [hshape.1 hdx]
    exact ⟨rfl, rfl, rfl⟩
  · have hdx2 : st1.detailedIndexExists = false := by
      cases hb : st1.detailedIndexExists
      · rfl
      · exact absurd hb hdx
    have hdocs : st1.docFiles = [] := by
      rcases hdet with hdet | hdet
      · exact absurd hdet hdx
      · exact hdet
    rw [hshape.2 hdx2, reconstructDocs_nil w st1 idx hdocs]
    exact ⟨rfl, rfl, rfl⟩

/-- A concrete ingestion world for the closed instances: one manifest link,
mapped to one local file, fetched successfully. -/
def sampleWorld : IngestWorld :=
  { manifest := "# P\n- [a](http://h/a.md)"
    llmsFullContent := none
    hashF := fun s => s
    linksOf := fun _ => ["http://h/a.md"]
    urlTypeIsWebPages := false
    scrapeFileFor := fun _ => none
    pathFor := fun _ => some "/c/a.md"
    fetchDoc := fun _ => some "content" }

/-- An absent cache (first-time ingestion). -/
def emptyCache : CacheState :=
  { dirExists := false, markerExists := false, savedHash := none,
    indexTxt := none, detailedIndexExists := false, docFiles := [] }

theorem c6_second_ingestion_run_is_checkValidity_only_witness :
    docFetchCount (setup_documentation_source_run sampleWorld
      (setup_documentation_source_run sampleWorld emptyCache).2.1).2.2 = 0 ∧
    summarizeCount (setup_documentation_source_run sampleWorld
      (setup_documentation_source_run sampleWorld emptyCache).2.1).2.2 = 0 ∧
    docWriteCount (setup_documentation_source_run sampleWorld
      (setup_documentation_source_run sampleWorld emptyCache).2.1).2.2 = 0 :=
  c6_second_ingestion_run_is_checkValidity_only sampleWorld emptyCache
    (setup_documentation_source_run sampleWorld emptyCache).2.1
    (setup_documentation_source_run sampleWorld emptyCache).1
    (setup_documentation_source_run sampleWorld emptyCache).2.2
    rfl rfl

/-- The fresh-download trace ends with the completion-marker write followed
by the stored-hash write, and neither occurs earlier. -/
lemma freshDownload_trace_shape (w : IngestWorld) (st : CacheState) (currentHash : String) :
    ∃ t, (freshDownload w st currentHash).2
        = t ++ [IngestEvent.writeMarker, IngestEvent.writeHash] ∧
      IngestEvent.writeMarker ∉ t ∧ IngestEvent.writeHash ∉ t := by
  refine ⟨[IngestEvent.writeIndexTxt]
      ++ (freshAttempted w).map IngestEvent.fetchDocument
      ++ (freshSaved w).map IngestEvent.writeDocument
      ++ (if freshSaved w ≠ [] then
            (freshSaved w).map IngestEvent.summarizeDocument ++ [IngestEvent.writeDetailedIndex]
          else []), ?_, ?_, ?_⟩
  · rw [freshDownload]
  all_goals {
    intro hm
    rcases List.mem_append.1 hm with he | he
    · rcases List.mem_append.1 he with he | he
      · rcases List.mem_append.1 he with he | he
        · rw [List.mem_singleton] at he
          exact IngestEvent.noConfusion he.symm
        · obtain ⟨u, _, hu⟩ := List.mem_map.1 he
          exact IngestEvent.noConfusion hu
      · obtain ⟨p, _, hp⟩ := List.mem_map.1 he
        exact IngestEvent.noConfusion hp
    · by_cases hs : freshSaved w ≠ []
      · rw [if_pos hs] at he
        rcases List.mem_append.1 he with he2 | he2
        · obtain ⟨p, _, hp⟩ := List.mem_map.1 he2
          exact IngestEvent.noConfusion hp
        · rw [List.mem_singleton] at he2
          exact IngestEvent.noConfusion he2.symm
      · rw [if_neg hs] at he
        simp at he }

/-- The commit sequence of `scrape_and_index_documentation` (lines
2000-2119) after the crawl, in trace form over the final cache directory:
an empty scrape returns early at line 2000 with no writes; otherwise the
scraped documents are moved into the final cache directory (line 2052), the
llms-full hash is saved (line 2065, inside a try/except — `hashOk`), the
detailed index is generated (line 2083 — `indexOk` when generation
succeeds), and the completion marker is written last (lines 2113-2117,
inside a try/except — `markerOk`). -/
def scrape_and_index_documentation_run (savedPaths : List String)
    (hashOk indexOk markerOk : Bool) : List IngestEvent :=
  if savedPaths = [] then []
  else
    savedPaths.map IngestEvent.writeDocument
      ++ (if hashOk then [IngestEvent.writeHash] else [])
      ++ (if indexOk then [IngestEvent.writeDetailedIndex] else [])
      ++ (if markerOk then [IngestEvent.writeMarker] else [])

/-- Claim C7 as amended: in both ingestion paths the completion marker is
written only after every document write and after the detailed-index
generation step.  In `setup_documentation_source` a run that writes the
marker at all has the marker write and the stored-hash write as its final
two steps; in `scrape_and_index_documentation` the marker is the final
step, but the stored hash is saved (line 2065) before the detailed index is
generated (line 2083), so the marker-and-hash-as-final-commit reading fails
there.  (The claim's stronger reading — that a written marker always
coexists with a written detailed index — is refuted by
`c7_counterexample_marker_without_detailed_index`.) -/
theorem c7_commit_marker_and_hash_are_final_steps
    (w : IngestWorld) (st0 : CacheState) (ok1 : Bool) (st1 : CacheState)
    (tr : List IngestEvent) (savedPaths : List String)
    (hashOk indexOk markerOk : Bool)
    (h : setup_documentation_source_run w st0 = (ok1, st1, tr)) :
    (IngestEvent.writeMarker ∈ tr →
      ∃ t, tr = t ++ [IngestEvent.writeMarker, IngestEvent.writeHash] ∧
        IngestEvent.writeMarker ∉ t ∧ IngestEvent.writeHash ∉ t) ∧
    (IngestEvent.writeMarker ∈
        scrape_and_index_documentation_run savedPaths hashOk indexOk markerOk →
      ∃ t, scrape_and_index_documentation_run savedPaths hashOk indexOk markerOk
          = t ++ [IngestEvent.writeMarker] ∧ IngestEvent.writeMarker ∉ t) ∧
    (savedPaths ≠ [] → hashOk = true → indexOk = true →
      ∃ t1 t2, scrape_and_index_documentation_run savedPaths hashOk indexOk markerOk
          = t1 ++ IngestEvent.writeHash :: t2 ∧
        IngestEvent.writeDetailedIndex ∈ t2) := by
  refine ⟨?_, ?_, ?_⟩
  · intro hm
    have hpre : ∀ st2 ch, tr = [IngestEvent.fetchManifest, IngestEvent.fetchLlmsFull]
          ++ (freshDownload w st2 ch).2 →
        ∃ t, tr = t ++ [IngestEvent.writeMarker, IngestEvent.writeHash] ∧
          IngestEvent.writeMarker ∉ t ∧ IngestEvent.writeHash ∉ t := by
      intro st2 ch htr
      obtain ⟨t, ht, hm1, hm2⟩ := freshDownload_trace_shape w st2 ch
      refine ⟨[IngestEvent.fetchManifest, IngestEvent.fetchLlmsFull] ++ t, ?_, ?_, ?_⟩
      · rw [htr, ht, List.append_assoc]
      · intro hmm
        rcases List.mem_append.1 hmm with hmm | hmm
        · simp at hmm
        · exact hm1 hmm
      · intro hmm
        rcases List.mem_append.1 hmm with hmm | hmm
        · simp at hmm
        · exact hm2 hmm
    rw [setup_documentation_source_run] at h
    split at h
    case isTrue hd =>
      split at h
      case h_1 idx hidx =>
        split at h
        · injection h with h1 h2
          injection h2 with h3 h4
          subst h4
          exfalso
          simp only [List.mem_append, List.mem_map] at hm
          rcases hm with (hm | ⟨p, _, hp⟩) | hm
          · simp at hm
          · exact IngestEvent.noConfusion hp
          · simp at hm
        · injection h with h1 h2
          injection h2 with h3 h4
          subst h4
          exfalso
          simp at hm
      case h_2 hidx =>
        injection h with h1 h2
        injection h2 with h3 h4
        subst h4
        exact hpre _ _ rfl
    case isFalse hd =>
      injection h with h1 h2
      injection h2 with h3 h4
      subst h4
      exact hpre _ _ rfl
  · intro hm
    by_cases hsp : savedPaths = []
    · simp [scrape_and_index_documentation_run, hsp] at hm
    · cases markerOk
      · cases hashOk <;> cases indexOk <;>
          simp [scrape_and_index_documentation_run, hsp] at hm
      · refine ⟨savedPaths.map IngestEvent.writeDocument
            ++ (if hashOk = true then [IngestEvent.writeHash] else [])
            ++ (if indexOk = true then [IngestEvent.writeDetailedIndex] else []),
          ?_, ?_⟩
        · simp [scrape_and_index_documentation_run, hsp]
        · intro hmm
          cases hashOk <;> cases indexOk <;> simp at hmm
  · intro hsp hh hi
    subst hh
    subst hi
    refine ⟨savedPaths.map IngestEvent.writeDocument,
      IngestEvent.writeDetailedIndex ::
        (if markerOk = true then [IngestEvent.writeMarker] else []), ?_, ?_⟩
    · simp [scrape_and_index_documentation_run, hsp]
    · simp

/-- Witness for C7: a first-time ingestion in `sampleWorld` writes the
marker and its trace ends with the marker and hash writes, neither of which
occurs earlier; a one-document scrape-path commit with all writes
succeeding ends with the marker and has the hash write strictly before the
detailed-index write. -/
theorem c7_commit_marker_and_hash_are_final_steps_witness :
    (∃ t, (setup_documentation_source_run sampleWorld emptyCache).2.2 =
        t ++ [IngestEvent.writeMarker, IngestEvent.writeHash] ∧
      IngestEvent.writeMarker ∉ t ∧ IngestEvent.writeHash ∉ t) ∧
    (∃ t, scrape_and_index_documentation_run ["a.md"] true true true
        = t ++ [IngestEvent.writeMarker] ∧ IngestEvent.writeMarker ∉ t) ∧
    (∃ t1 t2, scrape_and_index_documentation_run ["a.md"] true true true
        = t1 ++ IngestEvent.writeHash :: t2 ∧
      IngestEvent.writeDetailedIndex ∈ t2) :=
  ⟨(c7_commit_marker_and_hash_are_final_steps sampleWorld emptyCache
      (setup_documentation_source_run sampleWorld emptyCache).1
      (setup_documentation_source_run sampleWorld emptyCache).2.1
      (setup_documentation_source_run sampleWorld emptyCache).2.2
      ["a.md"] true true true rfl).1 (by decide),
   (c7_commit_marker_and_hash_are_final_steps sampleWorld emptyCache
      (setup_documentation_source_run sampleWorld emptyCache).1
      (setup_documentation_source_run sampleWorld emptyCache).2.1
      (setup_documentation_source_run sampleWorld emptyCache).2.2
      ["a.md"] true true true rfl).2.1 (by decide),
   (c7_commit_marker_and_hash_are_final_steps sampleWorld emptyCache
      (setup_documentation_source_run sampleWorld emptyCache).1
      (setup_documentation_source_run sampleWorld emptyCache).2.1
      (setup_documentation_source_run sampleWorld emptyCache).2.2
      ["a.md"] true true true rfl).2.2 (by decide) rfl rfl⟩

/-- A world whose every document fetch fails (successful manifest download,
zero saved documents). -/
def noDocsWorld : IngestWorld :=
  { sampleWorld with fetchDoc := fun _ => none }

/-- Counterexample to claim C7 as stated: a successful ingestion with zero
saved documents writes the completion marker even though no detailed index
was ever written, so a completion marker coexists with a missing index
(fresh-but-incomplete state). -/
theorem c7_counterexample_marker_without_detailed_index :
    IngestEvent.writeMarker ∈ (setup_documentation_source_run noDocsWorld emptyCache).2.2 ∧
    IngestEvent.writeDetailedIndex ∉
      (setup_documentation_source_run noDocsWorld emptyCache).2.2 ∧
    (setup_documentation_source_run noDocsWorld emptyCache).2.1.markerExists = true ∧
    (setup_documentation_source_run noDocsWorld emptyCache).2.1.detailedIndexExists = false := by
  decide

/-! ### Claim C8: soft-404 and thin-content exclusion -/

/-- The error-page title indicators of `scrape_single_page_async`
(line 1185). -/
def errorTitleIndicators : List String := ["page not found", "404", "error", "not found"]

/-- Python `str.lower()` (ASCII case folding). -/
def lowerStr (s : String) : String := String.mk (s.data.map Char.toLower)

/-- `needle` occurs as a contiguous run of `hay`. -/
def listInfix (needle : List Char) : List Char → Bool
  | [] => needle.isPrefixOf []
  | c :: t => needle.isPrefixOf (c :: t) || listInfix needle t

/-- Python `needle in haystack` substring containment. -/
def containsSubstr (haystack needle : String) : Bool :=
  listInfix needle.data haystack.data

/-- Line 1185: `any(indicator in page_title.lower() for indicator in [...])`. -/
def isErrorPageTitle (pageTitle : String) : Bool :=
  errorTitleIndicators.any (fun ind => containsSubstr (lowerStr pageTitle) ind)

/-- A successfully scraped page as returned by `scrape_single_page_async`. -/
structure PageResult where
  title : String
  content : String
deriving DecidableEq, Repr

/-- The post-fetch processing of `scrape_single_page_async` (lines
1178-1241), given the page title and the extracted markdown content after
selector extraction and cleanup: an error-titled page (line 1185) or a page
with fewer than 50 content characters (line 1239) produces `none` — no file
is saved — and anything else produces a saved result. -/
def scrape_page_outcome (pageTitle markdownContent : String) : Option PageResult :=
  if isErrorPageTitle pageTitle then none
  else if markdownContent.length < 50 then none
  else some ⟨pageTitle, markdownContent⟩

/-- Result bookkeeping of the crawl loop (lines 1497-1517): a `none` result
is excluded from `all_scraped_results` and counted in `failed_scrapes`; a
result is added to the corpus and counted in `successful_scrapes`. -/
def record_scrape_result (res : Option PageResult) (url : String)
    (corpus : List (String × PageResult)) (succ fail : Nat) :
    List (String × PageResult) × Nat × Nat :=
  match res with
  | some r => ((url, r) :: corpus, succ + 1, fail)
  | none => (corpus, succ, fail + 1)

/-- Counterexample to claim C8 as stated: a fetched page titled
"404 Page Not Found" with ample content is excluded from the corpus, but
the orchestrator counts it in `failed_scrapes` (line 1516), contradicting
"it is not counted as a failed unit". -/
theorem c8_counterexample_soft404_is_counted_as_failed :
    scrape_page_outcome "404 Page Not Found" (String.mk (List.replicate 100 'a')) = none ∧
    (record_scrape_result (scrape_page_outcome "404 Page Not Found"
        (String.mk (List.replicate 100 'a'))) "http://h/x" [] 0 0).2.2 = 1 ∧
    (record_scrape_result (scrape_page_outcome "404 Page Not Found"
        (String.mk (List.replicate 100 'a'))) "http://h/x" [] 0 0).1 = [] := by
  decide

/-- Claim C8 as amended: a fetched page whose title matches the error-page
heuristic, or whose extracted content is below the minimum length, yields
no saved result even though the fetch succeeded: it is excluded from the
corpus (so it never appears in the index, which is built from the corpus),
and the success counter is untouched — but it is counted as a failed unit
in the crawl statistics, indistinguishable from a fetch failure. -/
theorem c8_soft404_excluded_from_corpus_but_counted_failed
    (pageTitle markdownContent url : String) (corpus : List (String × PageResult))
    (succ fail : Nat)
    (h : isErrorPageTitle pageTitle = true ∨ markdownContent.length < 50) :
    scrape_page_outcome pageTitle markdownContent = none ∧
    (record_scrape_result (scrape_page_outcome pageTitle markdownContent) url corpus
        succ fail).1 = corpus ∧
    (record_scrape_result (scrape_page_outcome pageTitle markdownContent) url corpus
        succ fail).2.1 = succ ∧
    (record_scrape_result (scrape_page_outcome pageTitle markdownContent) url corpus
        succ fail).2.2 = fail + 1 := by
  have hout : scrape_page_outcome pageTitle markdownContent = none := by
    rw [scrape_page_outcome]
    rcases h with h | h
    · rw [if_pos h]
    · by_cases h2 : isErrorPageTitle pageTitle = true
      · rw [if_pos h2]
      · rw [if_neg h2, if_pos h]
  refine ⟨hout, ?_, ?_, ?_⟩ <;> rw [hout] <;> rfl

theorem c8_soft404_excluded_from_corpus_but_counted_failed_witness :
    scrape_page_outcome "Page Not Found | Docs" "any content" = none ∧
    (record_scrape_result (scrape_page_outcome "Page Not Found | Docs" "any content")
        "http://h/y" [] 3 7).1 = [] ∧
    (record_scrape_result (scrape_page_outcome "Page Not Found | Docs" "any content")
        "http://h/y" [] 3 7).2.1 = 3 ∧
    (record_scrape_result (scrape_page_outcome "Page Not Found | Docs" "any content")
        "http://h/y" [] 3 7).2.2 = 7 + 1 :=
  c8_soft404_excluded_from_corpus_but_counted_failed "Page Not Found | Docs" "any content"
    "http://h/y" [] 3 7 (Or.inl (by decide))

/-! ### Claim C10: Registry active-source membership invariant -/

/-- The global registry (`INDEXED_DOCS`, `CURRENT_ACTIVE_DOC`): indexed
sources keyed by URL (value = cache directory) and the active source URL. -/
structure Registry where
  indexed : List (String × String)
  active : Option String
deriving DecidableEq, Repr

/-- The invariant: the active source, when set, is a key of the indexed
map. -/
def RegistryWf (r : Registry) : Prop :=
  ∀ u, r.active = some u → (r.indexed.lookup u).isSome = true

/-- `set_active_documentation` (lines 1873-1892): unknown URLs are rejected
with an error and leave the state unchanged; known URLs become active. -/
def set_active_documentation (r : Registry) (url : String) : Registry × Bool :=
  if (r.indexed.lookup url).isSome then ({ r with active := some url }, true)
  else (r, false)

/-- `remove_documentation` (lines 1895-1938): unknown URLs are rejected; a
failing cache-directory delete returns an error before the registry is
touched (line 1923); otherwise the entry is deleted and the active marker
is cleared when it pointed at the removed source (lines 1926-1931). -/
def remove_documentation (r : Registry) (url : String) (dirExists : String → Bool)
    (rmtreeOk : Bool) : Registry × Bool :=
  match r.indexed.lookup url with
  | none => (r, false)
  | some cacheDir =>
    if cacheDir ≠ "" ∧ dirExists cacheDir = true ∧ rmtreeOk = false then (r, false)
    else
      ({ indexed := r.indexed.filter (fun kv => ¬ (kv.1 = url))
         active := if r.active = some url then none else r.active }, true)

/-- Registration performed by the ingestion tools (for example
`scrape_and_index_documentation`, lines 2101-2110): store or replace the
entry, then set it active. -/
def register_and_activate (r : Registry) (url cacheDir : String) : Registry :=
  { indexed :=
      if (r.indexed.lookup url).isSome then
        r.indexed.map (fun kv => if kv.1 = url then (url, cacheDir) else kv)
      else r.indexed ++ [(url, cacheDir)]
    active := some url }

/-- `load_indexed_docs_state` (lines 962-998): entries with a missing or
empty cache directory are dropped on load, and the persisted active URL is
kept only when non-empty and still present among the surviving entries. -/
def load_indexed_docs_state (persisted : List (String × String))
    (persistedActive : Option String) (dirExists : String → Bool) : Registry :=
  let loaded := persisted.filter (fun kv => kv.2 ≠ "" && dirExists kv.2)
  { indexed := loaded
    active :=
      match persistedActive with
      | some u => if u ≠ "" ∧ (loaded.lookup u).isSome = true then some u else none
      | none => none }

lemma lookup_filter_ne (l : List (String × String)) (url v : String) (hne : v ≠ url) :
    (l.filter (fun kv => ¬ (kv.1 = url))).lookup v = l.lookup v := by
  induction l with
  | nil => rfl
  | cons kv t ih =>
    obtain ⟨k, c⟩ := kv
    by_cases hk : k = url
    · subst hk
      have hb : (v == k) = false := by simp [hne]
      rw [List.filter_cons, if_neg (by simp), ih, List.lookup_cons, hb]
    · rw [List.filter_cons, if_pos (by simp [hk]), List.lookup_cons, List.lookup_cons]
      cases hb : (v == k) with
      | true => rfl
      | false => exact ih

lemma lookup_isSome_map_replace (l : List (String × String)) (url c : String)
    (h : (l.lookup url).isSome = true) :
    ((l.map (fun kv => if kv.1 = url then (url, c) else kv)).lookup url).isSome = true := by
  induction l with
  | nil => simp at h
  | cons kv t ih =>
    obtain ⟨k, v⟩ := kv
    rw [List.map_cons]
    by_cases hk : k = url
    · subst hk
      rw [show (if (k, v).1 = k then (k, c) else (k, v)) = (k, c) from by simp]
      rw [List.lookup_cons]
      cases hb : (k == k) with
      | true => rfl
      | false => simp at hb
    · rw [show (if (k, v).1 = url then (url, c) else (k, v)) = (k, v) from by simp [hk]]
      rw [List.lookup_cons] at h ⊢
      cases hb : (url == k) with
      | true => rfl
      | false =>
        rw [hb] at h
        exact ih h

lemma lookup_isSome_append_self (l : List (String × String)) (url c : String) :
    ((l ++ [(url, c)]).lookup url).isSome = true := by
  induction l with
  | nil =>
    rw [List.nil_append, List.lookup_cons]
    cases hb : (url == url) with
    | true => rfl
    | false => simp at hb
  | cons kv t ih =>
    obtain ⟨k, v⟩ := kv
    rw [List.cons_append, List.lookup_cons]
    cases hb : (url == k) with
    | true => rfl
    | false => exact ih

/-- `remove_documentation` either rejects (unknown URL or failed
directory delete) leaving the state unchanged, or deletes the entry and
clears the active marker when it pointed at the removed URL. -/
lemma remove_documentation_spec (r : Registry) (url : String) (dirExists : String → Bool)
    (rmtreeOk : Bool) :
    remove_documentation r url dirExists rmtreeOk = (r, false) ∨
    remove_documentation r url dirExists rmtreeOk
      = ({ indexed := r.indexed.filter (fun kv => ¬ (kv.1 = url))
           active := if r.active = some url then none else r.active }, true) := by
  rw [remove_documentation]
  split
  · exact Or.inl rfl
  · split
    · exact Or.inl rfl
    · exact Or.inr rfl

/-- Claim C10: Registry active-source membership invariant: whenever an
active source is set its URL is a key of the indexed map; setting an
unknown URL as active is rejected and leaves the state unchanged; every
listed operation preserves the invariant; a successful removal of the
active source clears the active marker; loading persisted state establishes
the invariant, clearing an active URL whose entry was dropped. -/
theorem c10_registry_active_source_membership_invariant :
    (∀ (r : Registry) (url : String), (r.indexed.lookup url).isSome = false →
      set_active_documentation r url = (r, false)) ∧
    (∀ (r : Registry) (url : String), RegistryWf r →
      RegistryWf (set_active_documentation r url).1) ∧
    (∀ (r : Registry) (url : String) (dirExists : String → Bool) (rmtreeOk : Bool),
      RegistryWf r → RegistryWf (remove_documentation r url dirExists rmtreeOk).1) ∧
    (∀ (r : Registry) (url : String) (dirExists : String → Bool) (rmtreeOk : Bool),
      (remove_documentation r url dirExists rmtreeOk).2 = true → r.active = some url →
      (remove_documentation r url dirExists rmtreeOk).1.active = none) ∧
    (∀ (r : Registry) (url cacheDir : String),
      RegistryWf (register_and_activate r url cacheDir)) ∧
    (∀ (persisted : List (String × String)) (persistedActive : Option String)
        (dirExists : String → Bool),
      RegistryWf (load_indexed_docs_state persisted persistedActive dirExists)) ∧
    (∀ (persisted : List (String × String)) (u : String) (dirExists : String → Bool),
      (((persisted.filter (fun kv => kv.2 ≠ "" && dirExists kv.2)).lookup u).isSome
          = false) →
      (load_indexed_docs_state persisted (some u) dirExists).active = none) := by
  refine ⟨?_, ?_, ?_, ?_, ?_, ?_, ?_⟩
  · intro r url h
    rw [set_active_documentation, if_neg (by simp [h])]
  · intro r url hwf
    rw [set_active_documentation]
    by_cases h : (r.indexed.lookup url).isSome = true
    · rw [if_pos h]
      intro v hv
      obtain rfl : url = v := by simpa using hv
      exact h
    · rw [if_neg h]
      exact hwf
  · intro r url dirExists rmtreeOk hwf
    rcases remove_documentation_spec r url dirExists rmtreeOk with hspec | hspec
    · rw [hspec]
      exact hwf
    · rw [hspec]
      intro v hv
      by_cases ha : r.active = some url
      · exact absurd hv (by simp [ha])
      · have hv2 : r.active = some v := by simpa [ha] using hv
        have hne : v ≠ url := fun e => ha (e ▸ hv2)
        show ((r.indexed.filter (fun kv => ¬ (kv.1 = url))).lookup v).isSome = true
        rw [lookup_filter_ne r.indexed url v hne]
        exact hwf v hv2
  · intro r url dirExists rmtreeOk hok ha
    rcases remove_documentation_spec r url dirExists rmtreeOk with hspec | hspec
    · rw [hspec] at hok
      exact absurd hok (by simp)
    · rw [hspec]
      simp [ha]
  · intro r url cacheDir
    intro v hv
    have hv2 : url = v := by simpa [register_and_activate] using hv
    rw [← hv2]
    show ((register_and_activate r url cacheDir).indexed.lookup url).isSome = true
    rw [register_and_activate]
    by_cases h : (r.indexed.lookup url).isSome = true
    · simp only [if_pos h]
      exact lookup_isSome_map_replace r.indexed url cacheDir h
    · simp only [if_neg h]
      exact lookup_isSome_append_self r.indexed url cacheDir
  · intro persisted persistedActive dirExists
    intro v hv
    cases persistedActive with
    | none => exact absurd hv (by simp [load_indexed_docs_state])
    | some u =>
      simp only [load_indexed_docs_state] at hv ⊢
      by_cases h : u ≠ "" ∧
          ((persisted.filter (fun kv => kv.2 ≠ "" && dirExists kv.2)).lookup u).isSome = true
      · rw [if_pos h] at hv
        obtain rfl : u = v := by simpa using hv
        exact h.2
      · rw [if_neg h] at hv
        exact absurd hv (by simp)
  · intro persisted u dirExists h
    have hcond : ¬ (u ≠ "" ∧
        ((persisted.filter (fun kv => kv.2 ≠ "" && dirExists kv.2)).lookup u).isSome
          = true) := by
      intro hcon
      rw [h] at hcon
      exact Bool.false_ne_true hcon.2
    simp only [load_indexed_docs_state]
    rw [if_neg hcond]

theorem c10_registry_active_source_membership_invariant_witness :
    RegistryWf (set_active_documentation
      (load_indexed_docs_state [("http://h/llms.txt", "/c/proj")] (some "http://h/llms.txt")
        (fun _ => true)) "http://h/llms.txt").1 :=
  (c10_registry_active_source_membership_invariant.2.1)
    (load_indexed_docs_state [("http://h/llms.txt", "/c/proj")] (some "http://h/llms.txt")
      (fun _ => true)) "http://h/llms.txt"
    ((c10_registry_active_source_membership_invariant.2.2.2.2.2.1)
      [("http://h/llms.txt", "/c/proj")] (some "http://h/llms.txt") (fun _ => true))

/-! ### Claim C9: normalization dedup

`normalize_url` (lines 1435-1443) works on the serialized URL string
`parsed._replace(fragment="", query="").geturl()`.  For an absolute URL
whose scheme and netloc contain no slash the serialization is
`scheme://netloc` followed by the joined path, so: the string ends with
`'/'` exactly when the path's split representation has a final `""` segment
and at least two segments, the slash count is `2 + (#segments - 1)`, and
`rstrip('/')` drops the trailing empty segments. -/

/-- A normalized URL (fragment and query removed by construction). -/
structure NormUrl where
  scheme : String
  netloc : String
  path : List String
deriving DecidableEq, Repr

/-- The serialized URL ends with `'/'`. -/
def urlEndsWithSlash (path : List String) : Bool :=
  decide (path.getLast? = some "") && decide (2 ≤ path.length)

/-- `normalized.count('/')` for the serialized absolute URL. -/
def urlSlashCount (path : List String) : Nat := 2 + (path.length - 1)

/-- Python `normalized.rstrip('/')` on the path's split representation. -/
def rstripAllSlash (p : List String) : List String :=
  let r := rstripEmptySeg p
  if r = [] then [""] else r

/-- The path portion of `normalize_url` (lines 1440-1442): strip the
trailing slash except at the domain root. -/
def normUrlPath (p : List String) : List String :=
  if urlEndsWithSlash p = true ∧ urlSlashCount p > 2 then rstripAllSlash p else p

/-- `normalize_url` (lines 1435-1443): remove fragment and query, strip the
trailing slash except for the domain root. -/
def normalize_url (u : ParsedUrl) : NormUrl :=
  { scheme := u.scheme, netloc := u.netloc, path := normUrlPath u.path }

lemma rstripEmptySeg_append_empty (p : List String) :
    rstripEmptySeg (p ++ [""]) = rstripEmptySeg p := by
  rw [rstripEmptySeg, rstripEmptySeg, List.reverse_append]
  simp [List.dropWhile_cons]

lemma rstripEmptySeg_of_getLast_ne (p : List String) (a : String)
    (ha : p.getLast? = some a) (hne : a ≠ "") : rstripEmptySeg p = p := by
  obtain ⟨q, rfl⟩ := List.getLast?_eq_some_iff.mp ha
  rw [rstripEmptySeg, List.reverse_append]
  rw [show ([a].reverse ++ q.reverse) = a :: q.reverse from by simp]
  rw [List.dropWhile_cons, if_neg (by simp [hne])]
  simp

/-- Appending a trailing slash does not change the normalized URL path. -/
lemma normUrlPath_append_empty (p : List String) (hp : p ≠ []) :
    normUrlPath (p ++ [""]) = normUrlPath p := by
  cases hlast : p.getLast? with
  | none => exact absurd (List.getLast?_eq_none_iff.mp hlast) hp
  | some a =>
    by_cases ha : a = ""
    · subst ha
      by_cases hone : p = [""]
      · subst hone
        decide
      · have hlen : 2 ≤ p.length := by
          obtain ⟨q, rfl⟩ := List.getLast?_eq_some_iff.mp hlast
          cases q with
          | nil => exact absurd rfl hone
          | cons b t => simp
        have h1 : normUrlPath p = rstripAllSlash p := by
          rw [normUrlPath, if_pos]
          constructor
          · rw [urlEndsWithSlash, hlast]
            simp [hlen]
          · rw [urlSlashCount]
            omega
        have h2 : normUrlPath (p ++ [""]) = rstripAllSlash (p ++ [""]) := by
          rw [normUrlPath, if_pos]
          constructor
          · rw [urlEndsWithSlash, List.getLast?_concat]
            simp
            omega
          · rw [urlSlashCount]
            simp
            omega
        rw [h1, h2, rstripAllSlash, rstripAllSlash, rstripEmptySeg_append_empty]
    · have h1 : normUrlPath p = p := by
        rw [normUrlPath, if_neg]
        intro hcon
        rw [urlEndsWithSlash, hlast] at hcon
        simp [ha] at hcon
      have h2 : normUrlPath (p ++ [""]) = rstripAllSlash (p ++ [""]) := by
        rw [normUrlPath, if_pos]
        have hlen : 1 ≤ p.length := by
          cases p with
          | nil => exact absurd rfl hp
          | cons b t => simp
        constructor
        · rw [urlEndsWithSlash, List.getLast?_concat]
          simp
          omega
        · rw [urlSlashCount]
          simp
          omega
      have h3 : rstripAllSlash (p ++ [""]) = p := by
        rw [rstripAllSlash]
        rw [show rstripEmptySeg (p ++ [""]) = rstripEmptySeg p from
          rstripEmptySeg_append_empty p]
        rw [rstripEmptySeg_of_getLast_ne p a hlast ha]
        simp [hp]
      rw [h1, h2, h3]

/-! Auxiliary facts about `lstripSlash`, `strStartsWith`, `strDropSeg` and
`dirnameSeg` used for the trailing-slash analysis. -/

lemma dropWhile_head_ne (x : List String) (a : String) (t : List String)
    (h : x.dropWhile (· = "") = a :: t) : a ≠ "" := by
  induction x with
  | nil => simp at h
  | cons b x2 ih =>
    rw [List.dropWhile_cons] at h
    by_cases hb : b = ""
    · rw [if_pos (by simp [hb])] at h
      exact ih h
    · rw [if_neg (by simp [hb])] at h
      obtain ⟨rfl, -⟩ := List.cons.inj h
      exact hb

lemma lstripSlash_ne_nil (x : List String) : lstripSlash x ≠ [] := by
  rw [lstripSlash]
  by_cases h : x.dropWhile (· = "") = []
  · simp [h]
  · simp [h]

lemma lstripSlash_cases (x : List String) :
    lstripSlash x = [""] ∨ ∃ a t, lstripSlash x = a :: t ∧ a ≠ "" := by
  rw [lstripSlash]
  by_cases h : x.dropWhile (· = "") = []
  · left
    simp [h]
  · right
    cases hd : x.dropWhile (· = "") with
    | nil => exact absurd hd h
    | cons a t =>
      refine ⟨a, t, ?_, dropWhile_head_ne x a t hd⟩
      simp [hd, h]

lemma lstripSlash_append_empty (x : List String) :
    lstripSlash (x ++ [""]) = lstripSlash x ++ [""] ∨
    (lstripSlash (x ++ [""]) = [""] ∧ lstripSlash x = [""]) := by
  by_cases hall : x.dropWhile (· = "") = []
  · right
    constructor
    · rw [lstripSlash, List.dropWhile_append, if_pos (by simp [hall])]
    · rw [lstripSlash, if_pos hall]
  · left
    rw [lstripSlash, lstripSlash, List.dropWhile_append,
      if_neg (by simp [List.isEmpty_iff, hall])]
    rw [if_neg (by simp [hall]), if_neg (by simp [hall])]

lemma strStartsWith_append_empty (d : List String) :
    ∀ p, strStartsWith p d = true → strStartsWith (p ++ [""]) d = true := by
  induction d with
  | nil => intro p _; cases p ++ [""] <;> rfl
  | cons d0 ds ih =>
    intro p h
    cases p with
    | nil =>
      cases ds with
      | nil => simp [strStartsWith] at h
      | cons d1 ds2 => simp [strStartsWith] at h
    | cons q qs =>
      cases ds with
      | nil =>
        rw [show ((q :: qs) ++ [""]) = q :: (qs ++ [""]) from rfl]
        rw [show strStartsWith (q :: (qs ++ [""])) [d0]
            = d0.data.isPrefixOf q.data from rfl]
        rw [show strStartsWith (q :: qs) [d0] = d0.data.isPrefixOf q.data from rfl] at h
        exact h
      | cons d1 ds2 =>
        rw [show strStartsWith (q :: qs) (d0 :: d1 :: ds2)
            = ((q = d0 : Bool) && strStartsWith qs (d1 :: ds2)) from rfl] at h
        rw [Bool.and_eq_true] at h
        rw [show ((q :: qs) ++ [""]) = q :: (qs ++ [""]) from rfl]
        rw [show strStartsWith (q :: (qs ++ [""])) (d0 :: d1 :: ds2)
            = ((q = d0 : Bool) && strStartsWith (qs ++ [""]) (d1 :: ds2)) from rfl]
        rw [Bool.and_eq_true]
        exact ⟨h.1, ih qs h.2⟩

lemma strStartsWith_snoc_forces (d : List String) :
    ∀ p, strStartsWith (p ++ [""]) d = true → strStartsWith p d = false →
      d = p ++ [""] := by
  induction d with
  | nil => intro p h1 h2; cases p <;> simp [strStartsWith] at h2
  | cons d0 ds ih =>
    intro p h1 h2
    cases p with
    | nil =>
      cases ds with
      | nil =>
        rw [List.nil_append] at h1 ⊢
        rw [show strStartsWith ([""]) [d0] = d0.data.isPrefixOf ("".data) from rfl] at h1
        have : d0.data = [] := by
          cases hd : d0.data with
          | nil => rfl
          | cons c cs =>
            rw [hd] at h1
            simp [List.isPrefixOf] at h1
        have : d0 = "" := by
          cases d0
          simp at this
          rw [this]
        rw [this]
      | cons d1 ds2 =>
        rw [List.nil_append] at h1
        rw [show strStartsWith ([""]) (d0 :: d1 :: ds2)
            = (("" = d0 : Bool) && strStartsWith [] (d1 :: ds2)) from rfl] at h1
        rw [show strStartsWith ([] : List String) (d1 :: ds2) = false from rfl] at h1
        simp at h1
    | cons q qs =>
      cases ds with
      | nil =>
        rw [show ((q :: qs) ++ [""]) = q :: (qs ++ [""]) from rfl] at h1
        rw [show strStartsWith (q :: (qs ++ [""])) [d0]
            = d0.data.isPrefixOf q.data from rfl] at h1
        rw [show strStartsWith (q :: qs) [d0] = d0.data.isPrefixOf q.data from rfl] at h2
        rw [h1] at h2
        exact absurd h2 (by simp)
      | cons d1 ds2 =>
        rw [show ((q :: qs) ++ [""]) = q :: (qs ++ [""]) from rfl] at h1
        rw [show strStartsWith (q :: (qs ++ [""])) (d0 :: d1 :: ds2)
            = ((q = d0 : Bool) && strStartsWith (qs ++ [""]) (d1 :: ds2)) from rfl] at h1
        rw [Bool.and_eq_true] at h1
        rw [show strStartsWith (q :: qs) (d0 :: d1 :: ds2)
            = ((q = d0 : Bool) && strStartsWith qs (d1 :: ds2)) from rfl] at h2
        have hq : q = d0 := by simpa using h1.1
        have h2b : strStartsWith qs (d1 :: ds2) = false := by
          cases hx : strStartsWith qs (d1 :: ds2) with
          | false => rfl
          | true => rw [hx, h1.1] at h2; simp at h2
        have := ih qs h1.2 h2b
        rw [show ((q :: qs) ++ [""]) = q :: (qs ++ [""]) from rfl, ← this, hq]

lemma strDropSeg_append_empty (d : List String) :
    ∀ p, strStartsWith p d = true → d ≠ [] →
      strDropSeg (p ++ [""]) d = strDropSeg p d ++ [""] := by
  induction d with
  | nil => intro p _ hd; exact absurd rfl hd
  | cons d0 ds ih =>
    intro p h _
    cases p with
    | nil =>
      cases ds with
      | nil => simp [strStartsWith] at h
      | cons d1 ds2 => simp [strStartsWith] at h
    | cons q qs =>
      cases ds with
      | nil =>
        rw [show ((q :: qs) ++ [""]) = q :: (qs ++ [""]) from rfl]
        rfl
      | cons d1 ds2 =>
        rw [show strStartsWith (q :: qs) (d0 :: d1 :: ds2)
            = ((q = d0 : Bool) && strStartsWith qs (d1 :: ds2)) from rfl,
          Bool.and_eq_true] at h
        rw [show ((q :: qs) ++ [""]) = q :: (qs ++ [""]) from rfl]
        rw [show strDropSeg (q :: (qs ++ [""])) (d0 :: d1 :: ds2)
            = strDropSeg (qs ++ [""]) (d1 :: ds2) from rfl]
        rw [show strDropSeg (q :: qs) (d0 :: d1 :: ds2)
            = strDropSeg qs (d1 :: ds2) from rfl]
        exact ih qs h.2 (by simp)

lemma strDropSeg_self (l : List String) (hl : l ≠ []) : strDropSeg l l = [""] := by
  induction l with
  | nil => exact absurd rfl hl
  | cons x xs ih =>
    cases xs with
    | nil =>
      show (String.mk (x.data.drop x.length)) :: [] = [""]
      rw [show x.length = x.data.length from rfl, List.drop_length]
    | cons y ys =>
      rw [show strDropSeg (x :: y :: ys) (x :: y :: ys)
          = strDropSeg (y :: ys) (y :: ys) from rfl]
      exact ih (by simp)

lemma rstripEmptySeg_getLast_ne (l : List String) :
    (rstripEmptySeg l).getLast? ≠ some "" := by
  rw [rstripEmptySeg, List.getLast?_reverse]
  cases hd : l.reverse.dropWhile (· = "") with
  | nil => simp
  | cons a t =>
    intro hcon
    simp only [List.head?_cons, Option.some.injEq] at hcon
    exact dropWhile_head_ne l.reverse a t hd hcon

lemma rstripEmptySeg_ne_nil_of_not_all (l : List String)
    (h : ¬ l.all (· = "") = true) : rstripEmptySeg l ≠ [] := by
  intro hcon
  apply h
  rw [List.all_eq_true]
  intro x hx
  have h2 : l.reverse.dropWhile (· = "") = [] := by
    have := congrArg List.reverse hcon
    rw [rstripEmptySeg] at hcon
    simpa using congrArg List.reverse hcon
  rw [List.dropWhile_eq_nil_iff] at h2
  exact h2 x (List.mem_reverse.2 hx)

lemma dirnameSeg_ne_nil (p : List String) : dirnameSeg p ≠ [] := by
  cases p with
  | nil => simp [dirnameSeg]
  | cons a t =>
    cases t with
    | nil => simp [dirnameSeg]
    | cons b t2 =>
      have hdir : dirnameSeg (a :: b :: t2)
          = if ((a :: b :: t2).dropLast).all (· = "") = true
            then (a :: b :: t2).dropLast ++ [""]
            else rstripEmptySeg ((a :: b :: t2).dropLast) := rfl
      rw [hdir]
      by_cases hall : ((a :: b :: t2).dropLast).all (· = "") = true
      · rw [if_pos hall]
        simp
      · rw [if_neg hall]
        exact rstripEmptySeg_ne_nil_of_not_all _ hall

lemma dirnameSeg_all_empty_of_last (p : List String)
    (h : (dirnameSeg p).getLast? = some "") : ∀ x ∈ dirnameSeg p, x = "" := by
  intro x hx
  cases p with
  | nil =>
    rw [show dirnameSeg [] = [""] from rfl] at hx
    simpa using hx
  | cons a t =>
    cases t with
    | nil =>
      rw [show dirnameSeg [a] = [""] from rfl] at hx
      simpa using hx
    | cons b t2 =>
      have hdir : dirnameSeg (a :: b :: t2)
          = if ((a :: b :: t2).dropLast).all (· = "") = true
            then (a :: b :: t2).dropLast ++ [""]
            else rstripEmptySeg ((a :: b :: t2).dropLast) := rfl
      rw [hdir] at h hx
      by_cases hall : ((a :: b :: t2).dropLast).all (· = "") = true
      · rw [if_pos hall] at hx
        rcases List.mem_append.1 hx with hx | hx
        · have := List.all_eq_true.1 hall x hx
          simpa using this
        · simpa using hx
      · rw [if_neg hall] at h
        exact absurd h (rstripEmptySeg_getLast_ne _)

lemma lstripSlash_of_all_empty (l : List String) (h : ∀ x ∈ l, x = "") :
    lstripSlash l = [""] := by
  rw [lstripSlash, if_pos]
  rw [List.dropWhile_eq_nil_iff]
  intro x hx
  simp [h x hx]

/-- Trailing-slash analysis of the derived relative path: appending a
trailing slash to the target path either appends a trailing empty segment
to the derived relative path or leaves it at the domain-root value. -/
lemma derivedRelativeSeg_trailing (mainp u1 u2 : ParsedUrl)
    (hn : u1.netloc = u2.netloc) (h12 : u2.path = u1.path ++ [""]) :
    derivedRelativeSeg mainp u2 = derivedRelativeSeg mainp u1 ++ [""] ∨
    (derivedRelativeSeg mainp u2 = [""] ∧ derivedRelativeSeg mainp u1 = [""]) := by
  rw [derivedRelativeSeg, derivedRelativeSeg, ← hn, h12]
  by_cases hnm : mainp.netloc ≠ u1.netloc
  · rw [if_pos hnm, if_pos hnm]
    exact lstripSlash_append_empty u1.path
  · rw [if_neg hnm, if_neg hnm]
    by_cases hdroot : dirnameSeg mainp.path = ["", ""]
    · rw [if_neg (by simp [hdroot]), if_neg (by simp [hdroot])]
      exact lstripSlash_append_empty u1.path
    · by_cases hs1 : strStartsWith u1.path (dirnameSeg mainp.path) = true
      · have hs2 : strStartsWith (u1.path ++ [""]) (dirnameSeg mainp.path) = true :=
          strStartsWith_append_empty (dirnameSeg mainp.path) u1.path hs1
        rw [if_pos ⟨hs2, hdroot⟩, if_pos ⟨hs1, hdroot⟩]
        rw [strDropSeg_append_empty (dirnameSeg mainp.path) u1.path hs1
          (dirnameSeg_ne_nil mainp.path)]
        exact lstripSlash_append_empty (strDropSeg u1.path (dirnameSeg mainp.path))
      · by_cases hs2 : strStartsWith (u1.path ++ [""]) (dirnameSeg mainp.path) = true
        · have hs1f : strStartsWith u1.path (dirnameSeg mainp.path) = false := by
            cases hx : strStartsWith u1.path (dirnameSeg mainp.path) with
            | false => rfl
            | true => exact absurd hx hs1
          have hdeq : dirnameSeg mainp.path = u1.path ++ [""] :=
            strStartsWith_snoc_forces (dirnameSeg mainp.path) u1.path hs2 hs1f
          rw [if_pos ⟨hs2, hdroot⟩, if_neg (by simp [hs1f])]
          right
          have hlast9 : (dirnameSeg mainp.path).getLast? = some "" := by
            rw [hdeq]
            exact List.getLast?_concat _
          have hall : ∀ x ∈ dirnameSeg mainp.path, x = "" :=
            dirnameSeg_all_empty_of_last mainp.path hlast9
          constructor
          · rw [← hdeq, strDropSeg_self (dirnameSeg mainp.path) (dirnameSeg_ne_nil _)]
            rfl
          · exact lstripSlash_of_all_empty u1.path
              (fun x hx => hall x (by rw [hdeq]; exact List.mem_append.2 (Or.inl hx)))
        · have hs2f : strStartsWith (u1.path ++ [""]) (dirnameSeg mainp.path) = false := by
            cases hx : strStartsWith (u1.path ++ [""]) (dirnameSeg mainp.path) with
            | false => rfl
            | true => exact absurd hx hs2
          rw [if_neg (by simp [hs2f]), if_neg (by simp [hs1])]
          exact lstripSlash_append_empty u1.path

lemma isabsSeg_cons_ne (a : String) (t : List String) (ha : a ≠ "") :
    isabsSeg (a :: t) = false := by
  cases t with
  | nil => rfl
  | cons x xs => simp [isabsSeg, ha]

/-- The derived relative path is a left-stripped path: it is either the
domain-root value `[""]` or starts with a nonempty segment. -/
lemma derivedRelativeSeg_shape (mainp u : ParsedUrl) :
    derivedRelativeSeg mainp u = [""] ∨
    ∃ a t, derivedRelativeSeg mainp u = a :: t ∧ a ≠ "" := by
  rw [derivedRelativeSeg]
  split
  · exact lstripSlash_cases u.path
  · split
    · exact lstripSlash_cases _
    · exact lstripSlash_cases u.path

/-- A trailing empty segment on the derived relative path does not change
the mapped local path. -/
lemma get_local_congr_trailing (mainp u1 u2 : ParsedUrl) (rs : List String)
    (hne : rs ≠ []) (hseg : ∀ r ∈ rs, r ≠ "" ∧ r ≠ "." ∧ r ≠ "..")
    (hrel : derivedRelativeSeg mainp u2 = derivedRelativeSeg mainp u1 ++ [""] ∨
      (derivedRelativeSeg mainp u2 = [""] ∧ derivedRelativeSeg mainp u1 = [""])) :
    get_local_path_from_url mainp u1 ("" :: rs)
      = get_local_path_from_url mainp u2 ("" :: rs) := by
  rcases hrel with hrel | ⟨h2, h1⟩
  case inr =>
    have hrp : relativePathOf mainp u1 = relativePathOf mainp u2 := by
      rw [relativePathOf, relativePathOf, if_pos h1, if_pos h2]
    rw [get_local_path_from_url, get_local_path_from_url, hrp]
  case inl =>
    rcases derivedRelativeSeg_shape mainp u1 with h1 | ⟨a, t, hat, hane⟩
    · rcases derivedRelativeSeg_shape mainp u2 with h2 | ⟨b, t2, hbt, hbne⟩
      · rw [h2, h1] at hrel
        exact absurd hrel (by simp)
      · rw [hbt, h1] at hrel
        rw [show (([""] : List String) ++ [""]) = ["", ""] from rfl] at hrel
        exact absurd (List.cons.inj hrel).1 hbne
    · have hne1 : derivedRelativeSeg mainp u1 ≠ [""] := by
        rw [hat]
        intro e
        exact hane (List.cons.inj e).1
      have hne2 : derivedRelativeSeg mainp u2 ≠ [""] := by
        rw [hrel, hat]
        intro e
        have := congrArg List.length e
        simp at this
      have hrp1 : relativePathOf mainp u1 = derivedRelativeSeg mainp u1 := by
        rw [relativePathOf, if_neg hne1]
      have hrp2 : relativePathOf mainp u2 = derivedRelativeSeg mainp u1 ++ [""] := by
        rw [relativePathOf, if_neg hne2, hrel]
      have habs1 : isabsSeg (relativePathOf mainp u1) = false := by
        rw [hrp1, hat]
        exact isabsSeg_cons_ne a t hane
      have habs2 : isabsSeg (relativePathOf mainp u2) = false := by
        rw [hrp2, hat, show ((a :: t) ++ [""]) = a :: (t ++ [""]) from rfl]
        exact isabsSeg_cons_ne a _ hane
      have hdd : (".." ∈ relativePathOf mainp u2) ↔ (".." ∈ relativePathOf mainp u1) := by
        rw [hrp1, hrp2]
        simp
      by_cases hg : ".." ∈ relativePathOf mainp u1
      · rw [get_local_path_from_url, get_local_path_from_url,
          if_pos (Or.inl hg), if_pos (Or.inl (hdd.2 hg))]
      · have hg2 : ".." ∉ relativePathOf mainp u2 := fun h => hg (hdd.1 h)
        have hv1 := normpath_join_under_root rs (relativePathOf mainp u1) hne hseg hg habs1
        have hv2 := normpath_join_under_root rs (relativePathOf mainp u2) hne hseg hg2 habs2
        rw [get_local_path_from_url, get_local_path_from_url,
          if_neg (by push_neg; exact ⟨hg, by simp [habs1]⟩),
          if_neg (by push_neg; exact ⟨hg2, by simp [habs2]⟩)]
        rw [hv1, hv2, hrp1, hrp2, List.filter_append,
          show List.filter keepComp [""] = [] from rfl, List.append_nil]

/-- Claim C9: normalization dedup: two URLs with the same scheme and host
whose paths differ only by a trailing slash (queries and fragments are
unconstrained) are normalized by the Frontier's `normalize_url` to the same
node, and `get_local_path_from_url` derives the same local path for both
against any main index URL and normalized absolute cache root, so such a
pair is never treated as two distinct units. -/
theorem c9_normalize_and_pathmapper_identify_trailing_slash_variants
    (mainp u1 u2 : ParsedUrl) (rs : List String)
    (hne : rs ≠ []) (hseg : ∀ r ∈ rs, r ≠ "" ∧ r ≠ "." ∧ r ≠ "..")
    (hs : u1.scheme = u2.scheme) (hn : u1.netloc = u2.netloc)
    (hp1 : u1.path ≠ []) (hp2 : u2.path ≠ [])
    (hp : u1.path = u2.path ∨ u2.path = u1.path ++ [""] ∨ u1.path = u2.path ++ [""]) :
    normalize_url u1 = normalize_url u2 ∧
    get_local_path_from_url mainp u1 ("" :: rs)
      = get_local_path_from_url mainp u2 ("" :: rs) := by
  rcases hp with hpe | h12 | h21
  · constructor
    · rw [normalize_url, normalize_url, hs, hn, hpe]
    · have hde : derivedRelativeSeg mainp u1 = derivedRelativeSeg mainp u2 := by
        rw [derivedRelativeSeg, derivedRelativeSeg, hn, hpe]
      have hrp : relativePathOf mainp u1 = relativePathOf mainp u2 := by
        rw [relativePathOf, relativePathOf, hde]
      rw [get_local_path_from_url, get_local_path_from_url, hrp]
  · constructor
    · rw [normalize_url, normalize_url, hs, hn, h12, normUrlPath_append_empty u1.path hp1]
    · exact get_local_congr_trailing mainp u1 u2 rs hne hseg
        (derivedRelativeSeg_trailing mainp u1 u2 hn h12)
  · constructor
    · rw [normalize_url, normalize_url, hs, hn, h21, normUrlPath_append_empty u2.path hp2]
    · exact (get_local_congr_trailing mainp u2 u1 rs hne hseg
        (derivedRelativeSeg_trailing mainp u2 u1 hn.symm h21)).symm

theorem c9_normalize_and_pathmapper_identify_trailing_slash_variants_witness :
    normalize_url ⟨"https", "example.com", ["", "docs", "page"], "x=1", "frag"⟩
      = normalize_url ⟨"https", "example.com", ["", "docs", "page", ""], "y=2", ""⟩ ∧
    get_local_path_from_url ⟨"https", "example.com", ["", "docs", "llms.txt"], "", ""⟩
      ⟨"https", "example.com", ["", "docs", "page"], "x=1", "frag"⟩ ["", "cache"]
    = get_local_path_from_url ⟨"https", "example.com", ["", "docs", "llms.txt"], "", ""⟩
      ⟨"https", "example.com", ["", "docs", "page", ""], "y=2", ""⟩ ["", "cache"] :=
  c9_normalize_and_pathmapper_identify_trailing_slash_variants
    ⟨"https", "example.com", ["", "docs", "llms.txt"], "", ""⟩
    ⟨"https", "example.com", ["", "docs", "page"], "x=1", "frag"⟩
    ⟨"https", "example.com", ["", "docs", "page", ""], "y=2", ""⟩
    ["cache"] (by decide) (by decide) rfl rfl (by decide) (by decide)
    (Or.inr (Or.inl rfl))

end DocAgent
